import Mathlib

/-!
# Verification of the Iron Lady ingestion pipeline (`vector_store.py`)

This file gives a shallow embedding, in Lean 4, of the pure core of
`vector_store.py`: the metadata extractors (`MetadataExtractor`), the
markdown-table processor (`TableProcessor`), the per-file document
processing (`DocumentProcessor.load_document`), and the batched,
retrying index construction (`VectorStoreCreator.create_vector_store`
and `run`).  Python strings are modelled as `List Char` (wrapped in
`String` at the interfaces), Python regular expressions are translated
into executable hand-written matchers that follow the leftmost /
greedy / lazy semantics of `re.search`, `re.findall` and `re.finditer`
for the concrete patterns appearing in the source, and Python
exceptions are modelled with `Except` / `Option`.

Two pieces of behaviour used by `load_document` and required by the
round-trip properties live in the external `langchain` library, not in
this repository: `RecursiveCharacterTextSplitter.split_text` and the
format-specific loaders.  Those are modelled from the specification
(see the `Modelled from the spec:` doc comments below); everything
else is translated directly from the source.
-/

namespace IronLady

/-- Python's `\s` character class (`str.strip` / `\s*` in the regexes):
space, tab, newline, carriage return, vertical tab, form feed. -/
def pyIsSpace (c : Char) : Bool :=
  c = ' ' || c = '\t' || c = '\n' || c = '\r' || c = '\x0b' || c = '\x0c'

/-- ASCII decimal digit, Python's `\d` on the ASCII inputs used here. -/
def isDigitCh (c : Char) : Bool := '0' ≤ c && c ≤ '9'

/-- ASCII uppercase letter, the regex class `[A-Z]`. -/
def isUpperAZ (c : Char) : Bool := 'A' ≤ c && c ≤ 'Z'

/-- ASCII lowercase letter. -/
def isLowerAZ (c : Char) : Bool := 'a' ≤ c && c ≤ 'z'

/-- ASCII letter, the regex class `[a-zA-Z]`. -/
def isLetterAZ (c : Char) : Bool := isUpperAZ c || isLowerAZ c

/-- The regex class `[a-zA-Z0-9_-]` used for YouTube video ids. -/
def isVideoIdCh (c : Char) : Bool :=
  isLetterAZ c || isDigitCh c || c = '_' || c = '-'

/-- Python `str.lower` / `re.IGNORECASE` folding, on the ASCII data used
by the source (`Char.toLower` lowercases exactly `A`–`Z` there). -/
def lowerCh (c : Char) : Char := c.toLower

/-- Lowercase a character list (Python `str.lower()`). -/
def lowerL (l : List Char) : List Char := l.map lowerCh

/-- `l` starts with the literal `pat` (case sensitively). -/
def startsWithL (pat l : List Char) : Bool := l.take pat.length == pat

/-- `l` starts with the literal `pat` up to ASCII case
(the `re.IGNORECASE` matches of the source). -/
def ciStartsWith (pat l : List Char) : Bool := lowerL (l.take pat.length) == pat

/-- `needle` occurs as a contiguous sublist of `hay`
(Python's `in` on strings). -/
def hasSub (needle : List Char) : List Char → Bool
  | [] => needle.isEmpty
  | l@(_ :: rest) => startsWithL needle l || hasSub needle rest

/-- Python `str.strip()`: remove leading and trailing whitespace. -/
def pyStrip (l : List Char) : List Char :=
  ((l.dropWhile pyIsSpace).reverse.dropWhile pyIsSpace).reverse

/-- Numeric value of a nonempty ASCII digit string (Python `int(...)`
applied to a `\d+` capture). -/
def digitsToNat (ds : List Char) : Nat :=
  ds.foldl (fun n c => n * 10 + (c.toNat - '0'.toNat)) 0

/-- `re.search` driver: try the position matcher `f` at every position
from the left, returning the first success. -/
def scanFirst (f : List Char → Option α) : List Char → Option α
  | [] => none
  | l@(_ :: rest) =>
    match f l with
    | some a => some a
    | none => scanFirst f rest

end IronLady

namespace IronLady

/-! ## `MetadataExtractor.extract_session_number` (vector_store.py:57-72)

The source tries, in order, the patterns `Session\s*(\d+)`,
`session\s*(\d+)`, `Session-(\d+)`, `Core Session (\d+)`, each with
`re.IGNORECASE`, and returns `int` of the first capture found. -/

/-- One attempt of `Session\s*(\d+)` (with `re.IGNORECASE`) at the head
of the list: the literal `session` (any case), then greedy `\s*`, then a
nonempty maximal digit run (the capture). -/
def sessionSpaceAt (l : List Char) : Option Nat :=
  if ciStartsWith "session".data l then
    let r := (l.drop 7).dropWhile pyIsSpace
    let ds := r.takeWhile isDigitCh
    if ds.isEmpty then none else some (digitsToNat ds)
  else none

/-- One attempt of `Session-(\d+)` (with `re.IGNORECASE`) at the head of
the list. -/
def sessionDashAt (l : List Char) : Option Nat :=
  if ciStartsWith "session-".data l then
    let ds := (l.drop 8).takeWhile isDigitCh
    if ds.isEmpty then none else some (digitsToNat ds)
  else none

/-- One attempt of `Core Session (\d+)` (with `re.IGNORECASE`) at the
head of the list. -/
def coreSessionAt (l : List Char) : Option Nat :=
  if ciStartsWith "core session ".data l then
    let ds := (l.drop 13).takeWhile isDigitCh
    if ds.isEmpty then none else some (digitsToNat ds)
  else none

/-- `MetadataExtractor.extract_session_number`: the four patterns are
tried in order over the whole path (`re.search` semantics); pattern 2
(`session\s*(\d+)`, `IGNORECASE`) coincides with pattern 1 under
`IGNORECASE`, so it is the same matcher. -/
def extract_session_number (file_path : String) : Option Nat :=
  match scanFirst sessionSpaceAt file_path.data with
  | some n => some n
  | none =>
    match scanFirst sessionSpaceAt file_path.data with
    | some n => some n
    | none =>
      match scanFirst sessionDashAt file_path.data with
      | some n => some n
      | none => scanFirst coreSessionAt file_path.data

/-! ## `MetadataExtractor.get_content_type` (vector_store.py:93-120) -/

/-- `MetadataExtractor.get_content_type`: keyword cascade over the
lowercased path, first match wins, default `"general"`. -/
def get_content_type (file_path : String) : String :=
  let p := lowerL file_path.data
  if hasSub "session 1".data p || hasSub "image creation".data p then
    "session_1_image_creation"
  else if hasSub "session 2".data p || hasSub "4t management".data p then
    "session_2_4t_management"
  else if hasSub "session 3".data p || hasSub "capability".data p then
    "session_3_capability"
  else if hasSub "session 4".data p || hasSub "pitch".data p then
    "session_4_pitch"
  else if hasSub "session 5".data p || hasSub "bing fa".data p
      || hasSub "stratagem".data p then
    "session_5_strategy"
  else if hasSub "session 6".data p then
    "session_6_implementation"
  else if hasSub "community".data p then
    "community_session"
  else if hasSub "revision".data p then
    "revision_session"
  else if hasSub "boardroom".data p then
    "boardroom_session"
  else
    "general"

/-! ## `MetadataExtractor.detect_tables_in_content` (vector_store.py:148-153)

`re.search(r'\|[^\n]+\|', text)`. -/

/-- `[^\n]*\|` : a closing pipe occurs before the next newline. -/
def pipeCloseAhead : List Char → Bool
  | [] => false
  | c :: rest => if c = '|' then true else if c = '\n' then false else pipeCloseAhead rest

/-- `\|[^\n]+\|` at the head of the list. -/
def pipeRowAt : List Char → Bool
  | '|' :: c :: rest => c ≠ '\n' && pipeCloseAhead rest
  | _ => false

/-- `re.search(r'\|[^\n]+\|', ·)` over the whole text. -/
def hasPipeRow : List Char → Bool
  | [] => false
  | l@(_ :: rest) => pipeRowAt l || hasPipeRow rest

/-- `MetadataExtractor.detect_tables_in_content`. -/
def detect_tables_in_content (text : String) : Bool :=
  hasPipeRow text.data

end IronLady

namespace IronLady

/-! ## `MetadataExtractor.extract_facilitator` (vector_store.py:74-91)

Four case-sensitive patterns tried in order; for each, the first
positional match is taken, the capture is stripped, and a denylisted
name makes the loop fall through to the next pattern. -/

/-- The regex class `[a-zA-Z\s]` of the facilitator captures. -/
def isFacCls (c : Char) : Bool := isLetterAZ c || pyIsSpace c

/-- `(?:\.|$)` after a lazy capture: a dot follows, or the string ends
(Python `$` also matches just before a single trailing newline). -/
def dotOrEnd (rest : List Char) : Bool :=
  rest.isEmpty || rest == ['\n'] ||
    (match rest with | '.' :: _ => true | _ => false)

/-- Lazy `[a-zA-Z\s]+?` followed by `(?:\.|$)`: the shortest nonempty
class run after which a dot or the end of string follows. -/
def lazyByCap : List Char → Option (List Char)
  | [] => none
  | c :: rest =>
    if isFacCls c then
      if dotOrEnd rest then some [c]
      else (lazyByCap rest).map (c :: ·)
    else none

/-- One attempt of `by\s+([A-Z][a-zA-Z\s]+?)(?:\.|$)` at the head. -/
def facByAt (l : List Char) : Option (List Char) :=
  match l with
  | 'b' :: 'y' :: t =>
    match t with
    | c0 :: _ =>
      if pyIsSpace c0 then
        match t.dropWhile pyIsSpace with
        | u :: rest =>
          if isUpperAZ u then (lazyByCap rest).map (u :: ·) else none
        | [] => none
      else none
    | [] => none
  | _ => none

/-- `\.(?:docx|md|pdf)` starts here. -/
def extDotAt (l : List Char) : Bool :=
  startsWithL ".docx".data l || startsWithL ".md".data l || startsWithL ".pdf".data l

/-- Lazy `[a-zA-Z\s]+?` followed by `\.(?:docx|md|pdf)`. -/
def lazyExtCap : List Char → Option (List Char)
  | [] => none
  | c :: rest =>
    if isFacCls c then
      if extDotAt rest then some [c]
      else (lazyExtCap rest).map (c :: ·)
    else none

/-- One attempt of `-\s*([A-Z][a-zA-Z\s]+?)\.(?:docx|md|pdf)` at the head. -/
def facDashAt (l : List Char) : Option (List Char) :=
  match l with
  | '-' :: t =>
    match t.dropWhile pyIsSpace with
    | u :: rest =>
      if isUpperAZ u then (lazyExtCap rest).map (u :: ·) else none
    | [] => none
  | _ => none

/-- Greedy `([A-Z][a-zA-Z\s]+)`: an uppercase letter then a nonempty
maximal class run. -/
def greedyFacCap : List Char → Option (List Char)
  | u :: rest =>
    if isUpperAZ u then
      let run := rest.takeWhile isFacCls
      if run.isEmpty then none else some (u :: run)
    else none
  | [] => none

/-- One attempt of `Showcase\s*-\s*([A-Z][a-zA-Z\s]+)` at the head. -/
def facShowcaseAt (l : List Char) : Option (List Char) :=
  if startsWithL "Showcase".data l then
    match (l.drop 8).dropWhile pyIsSpace with
    | '-' :: t2 => greedyFacCap (t2.dropWhile pyIsSpace)
    | _ => none
  else none

/-- One attempt of `Facilitator:\s*([A-Z][a-zA-Z\s]+)` at the head. -/
def facFacilitatorAt (l : List Char) : Option (List Char) :=
  if startsWithL "Facilitator:".data l then
    greedyFacCap ((l.drop 12).dropWhile pyIsSpace)
  else none

/-- The structural-word denylist of `extract_facilitator`. -/
def facDenylist : List String :=
  ["Session", "Image", "Iron", "Lady", "Way", "Complete", "Knowledge", "Base"]

/-- Strip the first positional capture of one pattern and reject
denylisted names (`if name not in [...]: return name`). -/
def facAccept (m : Option (List Char)) : Option String :=
  match m with
  | none => none
  | some cap =>
    let name := String.mk (pyStrip cap)
    if facDenylist.contains name then none else some name

/-- `MetadataExtractor.extract_facilitator`. -/
def extract_facilitator (filename : String) : Option String :=
  match facAccept (scanFirst facByAt filename.data) with
  | some n => some n
  | none =>
    match facAccept (scanFirst facDashAt filename.data) with
    | some n => some n
    | none =>
      match facAccept (scanFirst facShowcaseAt filename.data) with
      | some n => some n
      | none => facAccept (scanFirst facFacilitatorAt filename.data)

/-! ## `MetadataExtractor.extract_youtube_urls` (vector_store.py:42-55)

Two `IGNORECASE` patterns are applied with `findall`; the 11-character
capture groups are collected into a `set` and formatted as canonical
URLs.  The Python `set` is modelled as deduplication of the collected
captures (its iteration order is arbitrary; no claim depends on it). -/

/-- `([a-zA-Z0-9_-]{11})`: exactly eleven id characters; on success the
capture and the rest of the input after the full match. -/
def ytIdTake (l : List Char) : Option (List Char × List Char) :=
  let ids := l.take 11
  if ids.length = 11 && ids.all isVideoIdCh then some (ids, l.drop 11) else none

/-- `(?:youtube\.com/watch\?v=|youtu\.be/)([a-zA-Z0-9_-]{11})`. -/
def ytCore (l : List Char) : Option (List Char × List Char) :=
  (if ciStartsWith "youtube.com/watch?v=".data l then ytIdTake (l.drop 20) else none)
    <|> (if ciStartsWith "youtu.be/".data l then ytIdTake (l.drop 9) else none)

/-- `(?:www\.)?` then the core anchor. -/
def ytAfterWww (l : List Char) : Option (List Char × List Char) :=
  (if ciStartsWith "www.".data l then ytCore (l.drop 4) else none) <|> ytCore l

/-- `(?:https?://)?` then `(?:www\.)?` then the core anchor: one
attempt of the first YouTube pattern at the head of the list. -/
def ytBareAt (l : List Char) : Option (List Char × List Char) :=
  (if ciStartsWith "https://".data l then ytAfterWww (l.drop 8) else none)
    <|> (if ciStartsWith "http://".data l then ytAfterWww (l.drop 7) else none)
    <|> ytAfterWww l

/-- `\s*(?:url)?\s*[:=-]\s*` then the URL part of the second pattern. -/
def ytLabelTail (l : List Char) : Option (List Char × List Char) :=
  let a := l.dropWhile pyIsSpace
  let b := if ciStartsWith "url".data a then a.drop 3 else a
  match b.dropWhile pyIsSpace with
  | s :: rest =>
    if s = ':' || s = '=' || s = '-' then ytBareAt (rest.dropWhile pyIsSpace)
    else none
  | [] => none

/-- One attempt of the labelled pattern
`(?:youtube|utube|video|link|url)\s*(?:url)?\s*[:=-]\s*…` at the head. -/
def ytLabeledAt (l : List Char) : Option (List Char × List Char) :=
  (if ciStartsWith "youtube".data l then ytLabelTail (l.drop 7) else none)
    <|> (if ciStartsWith "utube".data l then ytLabelTail (l.drop 5) else none)
    <|> (if ciStartsWith "video".data l then ytLabelTail (l.drop 5) else none)
    <|> (if ciStartsWith "link".data l then ytLabelTail (l.drop 4) else none)
    <|> (if ciStartsWith "url".data l then ytLabelTail (l.drop 3) else none)

/-- `re.findall` driver: scan from the left, emit the capture of each
(leftmost, non-overlapping) match and continue after its end. -/
def scanAll (f : List Char → Option (List Char × List Char)) :
    Nat → List Char → List (List Char)
  | 0, _ => []
  | fuel + 1, l =>
    match f l with
    | some (cap, rest) => cap :: scanAll f fuel rest
    | none =>
      match l with
      | [] => []
      | _ :: rest => scanAll f fuel rest

/-- `MetadataExtractor.extract_youtube_urls`. -/
def extract_youtube_urls (text : String) : List String :=
  let ids1 := scanAll ytBareAt text.data.length text.data
  let ids2 := scanAll ytLabeledAt text.data.length text.data
  ((ids1 ++ ids2).dedup).map
    (fun ids => "https://www.youtube.com/watch?v=" ++ String.mk ids)

end IronLady

namespace IronLady

/-! ## `TableProcessor` (vector_store.py:160-196)

`extract_tables` runs
`re.finditer(r'(\|[^\n]+\|\n\|[\s\-:|]+\|\n(?:\|[^\n]+\|\n?)+)', text)`
and records each match's content, start and end.  The matchers below
implement the leftmost / greedy-with-backtracking semantics of that
concrete pattern: the two `\|[^\n]+\|\n` parts deterministically pin
their closing pipe immediately before the following newline; the
separator class `[\s\-:|]+` is tried from its maximal run downwards
(the class contains `\n`, so it can span lines); the final data-row
repetition is greedy, each unit closing at the last pipe of its line
and absorbing an optional newline. -/

/-- The regex class `[\s\-:|]` of the separator row. -/
def isSepCls (c : Char) : Bool := pyIsSpace c || c = '-' || c = ':' || c = '|'

/-- Index of the last `'|'` in a line, if any. -/
def lastPipeIdx (line : List Char) : Option Nat :=
  (line.enum.filter (fun p => p.2 = '|')).getLast?.map Prod.fst

/-- One data-row unit `\|[^\n]+\|\n?`: the closing pipe is the last
pipe in the current line (at index at least 1 after the opening pipe),
and a directly following newline is absorbed.  Returns the number of
characters consumed. -/
def tblRowUnit (l : List Char) : Option Nat :=
  match l with
  | '|' :: t =>
    let line := t.takeWhile (· ≠ '\n')
    match lastPipeIdx line with
    | some j =>
      if 1 ≤ j then
        some (1 + (j + 1) + (if (t.drop (j + 1)).head? = some '\n' then 1 else 0))
      else none
    | none => none
  | _ => none

/-- Greedy `(?:\|[^\n]+\|\n?)+`: one or more data-row units.  The fuel
is the length of the input; every unit consumes at least one character. -/
def tblRows : Nat → List Char → Option Nat
  | 0, _ => none
  | fuel + 1, l =>
    match tblRowUnit l with
    | none => none
    | some n =>
      match tblRows fuel (l.drop n) with
      | some m => some (n + m)
      | none => some n

/-- The header part `\|[^\n]+\|\n`: a pipe, a nonempty newline-free
run ending in a pipe, then the newline.  Returns characters consumed. -/
def tblHeader (l : List Char) : Option Nat :=
  match l with
  | '|' :: t =>
    let line := t.takeWhile (· ≠ '\n')
    if line.length < t.length && 2 ≤ line.length && line.getLast? = some '|' then
      some (1 + line.length + 1)
    else none
  | _ => none

/-- Try separator-class length `m` (chars `u[0..m)`), demanding
`u[m] = '|'`, `u[m+1] = '\n'`, then at least one data row. -/
def tblSepTry (u : List Char) (m : Nat) : Option Nat :=
  if u.get? m = some '|' && u.get? (m + 1) = some '\n' then
    tblRows (u.drop (m + 2)).length (u.drop (m + 2))
  else none

/-- Backtracking search for `[\s\-:|]+\|\n` followed by data rows:
class lengths are tried from the maximal run downwards (greedy). -/
def tblSepSearch (u : List Char) : Nat → Option (Nat × Nat)
  | 0 => none
  | m + 1 =>
    match tblSepTry u (m + 1) with
    | some d => some (m + 1, d)
    | none => tblSepSearch u m

/-- One attempt of the whole table pattern at the head of the list;
returns the total number of characters of the match. -/
def matchTableAt (l : List Char) : Option Nat :=
  match tblHeader l with
  | none => none
  | some h =>
    match l.drop h with
    | '|' :: u =>
      let run := (u.takeWhile isSepCls).length
      match tblSepSearch u run with
      | some (m, d) => some (h + 1 + m + 2 + d)
      | none => none
    | _ => none

/-- One `re.finditer` match of the table pattern: the matched text and
its character range (`start`/`end` of the Python match object; `end` is
called `stop` here because `end` is a keyword in Lean). -/
structure TableMatch where
  content : List Char
  start : Nat
  stop : Nat
deriving Repr, DecidableEq

/-- The `re.finditer` scan: leftmost matches, continuing after each
match's end. -/
def scanTables : Nat → List Char → Nat → List TableMatch
  | 0, _, _ => []
  | fuel + 1, l, pos =>
    match matchTableAt l with
    | some n =>
      { content := l.take n, start := pos, stop := pos + n }
        :: scanTables fuel (l.drop n) (pos + n)
    | none =>
      match l with
      | [] => []
      | _ :: rest => scanTables fuel rest (pos + 1)

/-- `TableProcessor.extract_tables`. -/
def extract_tables (text : String) : List TableMatch :=
  scanTables text.data.length text.data 0

/-- The marker wrapper of `mark_table_boundaries`:
`f"\n\n[TABLE_START]\n{table_content}\n[TABLE_END]\n\n"`. -/
def markerWrap (content : List Char) : List Char :=
  "\n\n[TABLE_START]\n".data ++ content ++ "\n[TABLE_END]\n\n".data

/-- One splice `result[:start] + marked_table + result[end:]`. -/
def spliceTable (res : List Char) (t : TableMatch) : List Char :=
  res.take t.start ++ markerWrap t.content ++ res.drop t.stop

/-- `TableProcessor.mark_table_boundaries`: splice the wrapped tables
back in, from the last match to the first. -/
def mark_table_boundaries (text : String) : String :=
  String.mk (((extract_tables text).reverse).foldl spliceTable text.data)

end IronLady

namespace IronLady

/-! ## Paths

`load_document` consults `pathlib.Path` for `suffix`, `name`,
`parent.name` and `str(file_path)`.  A POSIX path is modelled as its
list of segments. -/

/-- A `pathlib.Path`, as its nonempty list of segments. -/
structure PyPath where
  segs : List String
deriving Repr, DecidableEq

/-- `Path.name`: the final segment. -/
def PyPath.name (p : PyPath) : String := p.segs.getLast?.getD ""

/-- `Path.parent.name`: the segment before the final one (empty when
there is none, as for `Path("x.md").parent.name`). -/
def PyPath.parentName (p : PyPath) : String :=
  p.segs.dropLast.getLast?.getD ""

/-- `str(file_path)` for a relative POSIX path. -/
def PyPath.toStr (p : PyPath) : String := String.intercalate "/" p.segs

/-- `Path.suffix` (CPython): the part of the name from its last dot,
provided that dot is neither the first nor the last character. -/
def pySuffix (name : String) : String :=
  let cs := name.data
  match (cs.enum.filter (fun q => q.2 = '.')).getLast?.map Prod.fst with
  | some i => if 0 < i ∧ i + 1 < cs.length then String.mk (cs.drop i) else ""
  | none => ""

/-! ## `DocumentProcessor.load_document` (vector_store.py:294-424)

The raw-text loaders (`UnstructuredWordDocumentLoader`,
`UnstructuredMarkdownLoader`, `PyPDFLoader`) and
`RecursiveCharacterTextSplitter.split_text` are external library
calls.  `load_document` is therefore parametrised by the loader's
outcome (`Except` models a raised exception, caught by the
function's `try/except` which logs and returns `[]`) and by the
splitter (`split tableAware content`, where `tableAware` records
which of the two configured splitters — `table_aware_splitter` or
`text_splitter` — the source selected). -/

/-- Python `str.replace(pat, rep)`: leftmost, non-overlapping. -/
def replaceAll (pat rep : List Char) : Nat → List Char → List Char
  | 0, l => l
  | fuel + 1, l =>
    if startsWithL pat l then rep ++ replaceAll pat rep fuel (l.drop pat.length)
    else
      match l with
      | [] => []
      | c :: rest => c :: replaceAll pat rep fuel rest

/-- `c.replace('[TABLE_START]', '').replace('[TABLE_END]', '')`. -/
def stripMarkers (s : String) : String :=
  let a := replaceAll "[TABLE_START]".data [] s.data.length s.data
  String.mk (replaceAll "[TABLE_END]".data [] a.length a)

/-- The per-chunk record built by `load_document` (vector_store.py:353-416):
the metadata fields the claims are about, together with the cleaned chunk
text.  `session_title`, `processed_date` (wall-clock time), the
section-info fields and the human-readable content banner of the
persisted `page_content` are not consulted by any claim and are omitted. -/
structure ChunkRecord where
  source_file : String
  file_path : String
  file_type : String
  parent_folder : String
  session_number : Option Nat
  facilitator : Option String
  content_type : String
  has_tables : Bool
  youtube_urls : Option String
  chunk_index : Nat
  total_chunks : Nat
  category : String
  chunk_text : String
deriving Repr, DecidableEq

/-- The category tagging of vector_store.py:380-387 (note that Python
`elif session_num:` treats `None` and `0` alike as falsy). -/
def categoryOf (parent_folder : String) (session_num : Option Nat) : String :=
  if hasSub "community".data (lowerL parent_folder.data) then "community"
  else if hasSub "revision".data (lowerL parent_folder.data) then "revision"
  else
    match session_num with
    | some n => if n = 0 then "general" else "session_" ++ toString n
    | none => "general"

/-- The per-chunk record of vector_store.py:353-416 (`ic` is one
element of `enumerate(chunks)`). -/
def mkChunkRecord (path : PyPath) (suffix : String) (session_num : Option Nat)
    (facilitator : Option String) (content_type : String) (has_tables : Bool)
    (youtube_urls : List String) (total : Nat) (ic : Nat × String) :
    ChunkRecord :=
  { source_file := path.name
    file_path := path.toStr
    file_type := String.mk suffix.data.tail
    parent_folder := path.parentName
    session_number := session_num
    facilitator := facilitator
    content_type := content_type
    has_tables := has_tables
    youtube_urls :=
      if youtube_urls.isEmpty then none
      else some (String.intercalate ", " youtube_urls)
    chunk_index := ic.1
    total_chunks := total
    category := categoryOf path.parentName session_num
    chunk_text := ic.2 }

/-- `DocumentProcessor.load_document`.  `loaderResult` is the outcome of
`loader.load()` followed by taking each element's `page_content`
(`Except.error` models an exception raised while loading, which the
surrounding `try/except` turns into `[]`).  `split ta s` models
`splitter.split_text(s)` for the selected splitter. -/
def load_document (split : Bool → String → List String) (path : PyPath)
    (loaderResult : Except String (List String)) : List ChunkRecord :=
  let name := path.name
  let suffix := String.mk (lowerL (pySuffix name).data)
  if suffix = ".docx" || suffix = ".md" || suffix = ".pdf" then
    match loaderResult with
    | Except.error _ => []
    | Except.ok rawDocs =>
      if rawDocs.isEmpty then []
      else
        let full_content := String.intercalate "\n\n" rawDocs
        if (pyStrip full_content.data).isEmpty then []
        else
          let has_tables := detect_tables_in_content full_content
          let content :=
            if has_tables then mark_table_boundaries full_content else full_content
          let session_num := extract_session_number path.toStr
          let facilitator := extract_facilitator name
          let content_type := get_content_type path.toStr
          let youtube_urls := extract_youtube_urls content
          let chunks := (split has_tables content).map stripMarkers
          chunks.enum.map
            (mkChunkRecord path suffix session_num facilitator content_type
              has_tables youtube_urls chunks.length)
  else []

/-- `VectorStoreCreator.load_all_documents` (vector_store.py:506-555),
restricted to its record accumulation: the per-file results are
concatenated in file order (the statistics counters are observational
only). -/
def load_all_documents (split : Bool → String → List String)
    (files : List (PyPath × Except String (List String))) : List ChunkRecord :=
  (files.map (fun pr => load_document split pr.1 pr.2)).flatten

end IronLady

namespace IronLady

/-! ## `VectorStoreCreator.create_vector_store` (vector_store.py:557-629)

The embedding provider is modelled as
`prov : Nat → Nat → Option String`: `prov b a` is the outcome of the
persistence call for (0-based) batch `b` on (0-based) attempt `a`
(`none` = success, `some e` = the exception message raised by
`Chroma.from_documents` / `add_documents`).  The function returns the
batches committed in order together with the log of retry sleeps (the
fixed 0.5 s pause between successful batches is not a retry sleep
and is not logged); `Except.error` models the re-raised exception
after a non-rate-limit error or an exhausted retry cap. -/

/-- `"rate_limit" in str(e).lower() or "429" in str(e)`. -/
def isRateLimitErr (e : String) : Bool :=
  hasSub "rate_limit".data (lowerL e.data) || hasSub "429".data e.data

/-- `batch_size = 100` (vector_store.py:567). -/
def batch_size : Nat := 100

/-- `max_retries = 3` (vector_store.py:574). -/
def max_retries : Nat := 3

/-- The first-batch retry loop (vector_store.py:577-596).  Returns the
final value of the mutable `retry_delay` (initially 5, doubled after
each rate-limit sleep) and the sleeps performed.  The fuel equals the
remaining loop iterations and never runs out for `attempt <
max_retries`. -/
def initAttempts (prov : Nat → Nat → Option String) :
    Nat → Nat → Nat → Except String (Nat × List Nat)
  | 0, _, _ => Except.error "loop exhausted"
  | fuel + 1, attempt, delay =>
    match prov 0 attempt with
    | none => Except.ok (delay, [])
    | some e =>
      if isRateLimitErr e then
        if attempt < max_retries - 1 then
          match initAttempts prov fuel (attempt + 1) (delay * 2) with
          | Except.ok (d, sleeps) => Except.ok (d, delay :: sleeps)
          | Except.error err => Except.error err
        else Except.error e
      else Except.error e

/-- The retry loop for one subsequent batch `b`
(vector_store.py:603-624): on a rate-limit error at attempt `a` it
sleeps `retry_delay * 2 ** a` and retries, up to `max_retries`
attempts. -/
def addAttempts (prov : Nat → Nat → Option String) (b rd : Nat) :
    Nat → Nat → Except String (List Nat)
  | 0, _ => Except.error "loop exhausted"
  | fuel + 1, attempt =>
    match prov b attempt with
    | none => Except.ok []
    | some e =>
      if isRateLimitErr e then
        if attempt < max_retries - 1 then
          match addAttempts prov b rd fuel (attempt + 1) with
          | Except.ok sleeps => Except.ok ((rd * 2 ^ attempt) :: sleeps)
          | Except.error err => Except.error err
        else Except.error e
      else Except.error e

/-- The loop over the remaining batches (vector_store.py:599-624):
`l` is `documents[i:]`, `b` the 0-based batch index `i // batch_size`. -/
def addLoop (prov : Nat → Nat → Option String) (rd : Nat) :
    Nat → List α → Except String (List (List α) × List Nat)
  | _, [] => Except.ok ([], [])
  | b, x :: xs =>
    match addAttempts prov b rd max_retries 0 with
    | Except.error e => Except.error e
    | Except.ok sleeps =>
      match addLoop prov rd (b + 1) ((x :: xs).drop batch_size) with
      | Except.error e => Except.error e
      | Except.ok (bs, ss) =>
        Except.ok ((x :: xs).take batch_size :: bs, sleeps ++ ss)
  termination_by _ l => l.length
  decreasing_by simp [List.length_drop, batch_size]; omega

/-- `VectorStoreCreator.create_vector_store`: partition into batches of
`batch_size`, initialise the store from the first batch with the
retry loop, then append the remaining batches in order, each with its
own retry loop.  Returns the committed batches in commit order and the
retry-sleep log. -/
def create_vector_store (prov : Nat → Nat → Option String)
    (documents : List α) : Except String (List (List α) × List Nat) :=
  match initAttempts prov max_retries 0 5 with
  | Except.error e => Except.error e
  | Except.ok (rd, s0) =>
    match addLoop prov rd 1 (documents.drop batch_size) with
    | Except.error e => Except.error e
    | Except.ok (bs, ss) =>
      Except.ok (documents.take batch_size :: bs, s0 ++ ss)

/-! ## `VectorStoreCreator.__init__` and `run` (vector_store.py:434-463, 665-708) -/

/-- The only exception `VectorStoreCreator.__init__` itself raises:
`ValueError("Only OpenAI embeddings supported")` for a non-OpenAI
embedding model (the `OpenAIEmbeddings` constructor is an external
library call, treated as opaque). -/
def initCreator (embedding_model : String) : Except String Unit :=
  if embedding_model = "openai" then Except.ok ()
  else Except.error "Only OpenAI embeddings supported"

/-- The observable stages of `VectorStoreCreator.run`. -/
inductive RunEvent
  | reportMissingKey
  | discoverFiles
  | reportNoFiles
  | loadDocuments
  | reportNoDocuments
  | embedBatches
  | reportStatistics
deriving Repr, DecidableEq

/-- `VectorStoreCreator.run` as its sequence of stages: the
`OPENAI_API_KEY` check precedes everything else; a missing key is
reported and the method returns (no exception) before any discovery,
loading or embedding.  `apiKey` is `os.getenv("OPENAI_API_KEY")`;
`discovered` and `loaded` are the outcomes of the discovery and
loading stages when they run. -/
def run (apiKey : Option String) (discovered : List PyPath)
    (loaded : List ChunkRecord) : List RunEvent :=
  if apiKey.getD "" = "" then [RunEvent.reportMissingKey]
  else
    RunEvent.discoverFiles ::
      (if discovered.isEmpty then [RunEvent.reportNoFiles]
       else
         RunEvent.loadDocuments ::
           (if loaded.isEmpty then [RunEvent.reportNoDocuments]
            else [RunEvent.embedBatches, RunEvent.reportStatistics]))

end IronLady

namespace IronLady

/-- The keyword table of `get_content_type`, in cascade order. -/
def contentTypeKeywords : List (List Char) :=
  ["session 1".data, "image creation".data, "session 2".data,
   "4t management".data, "session 3".data, "capability".data,
   "session 4".data, "pitch".data, "session 5".data, "bing fa".data,
   "stratagem".data, "session 6".data, "community".data,
   "revision".data, "boardroom".data]

/-- The batch partition of `create_vector_store`: consecutive slices of
`batch_size` documents (used to state C1; the committed batches are
proved equal to it). -/
def batches100 : List α → List (List α)
  | [] => []
  | x :: xs => (x :: xs).take batch_size :: batches100 ((x :: xs).drop batch_size)
  termination_by l => l.length
  decreasing_by simp [List.length_drop, batch_size]; omega

/-- Modelled from the spec: the output of
`RecursiveCharacterTextSplitter.split_text` (an external `langchain`
dependency; its code is not part of this repository).  Spec §4.3
step 4: the splitter recursively attempts separators "until each
produced segment is within a configured maximum size, preserving a
configured overlap between adjacent segments", so its output is a
sequence of in-order segments of the document, each nonempty,
consecutive segments overlapping (or abutting), together covering the
text from its first to its last character.  A chunking is represented
by the list of `(start, stop)` spans of the chunks in the text. -/
structure ValidSplit (text : List Char) (spans : List (Nat × Nat)) : Prop where
  ne : spans ≠ []
  head_start : spans.head?.map Prod.fst = some 0
  last_stop : spans.getLast?.map Prod.snd = some text.length
  bounds : ∀ p ∈ spans, p.1 < p.2 ∧ p.2 ≤ text.length
  chain : spans.Chain' fun p q => q.1 ≤ p.2 ∧ p.1 ≤ q.1 ∧ p.2 ≤ q.2

/-- The chunk of text denoted by a span. -/
def sliceL (text : List Char) (p : Nat × Nat) : List Char :=
  (text.take p.2).drop p.1

/-- Concatenate the chunks after `prevStop`, removing from each chunk
the overlap it shares with its predecessor. -/
def trimRest (text : List Char) : Nat → List (Nat × Nat) → List Char
  | _, [] => []
  | prevStop, q :: rest =>
    (sliceL text q).drop (prevStop - q.1) ++ trimRest text q.2 rest

/-- Concatenation of all chunks with the overlap regions of adjacent
pairs removed. -/
def dropOverlapConcat (text : List Char) : List (Nat × Nat) → List Char
  | [] => []
  | p :: rest => sliceL text p ++ trimRest text p.2 rest

/-! ## Claim C2: well-formed tables are detected and never split

A well-formed markdown table is modelled structurally: a header row, a
separator row and at least one data row, each rendered as
`| interior |` and joined by newlines.  Interiors are nonempty and
newline-free; the separator interior uses only `' '`, `'-'`, `':'`,
`'|'`; the header and each data row contain at least one character
outside the regex class `[\s\-:|]` (which is what distinguishes them
from a separator row). -/

/-- `| r |`: one rendered table line. -/
def rowChars (r : List Char) : List Char := '|' :: r ++ ['|']

/-- Rendered lines joined by single newlines (no trailing newline). -/
def rowsChars : List (List Char) → List Char
  | [] => []
  | [r] => rowChars r
  | r :: r2 :: rs => rowChars r ++ '\n' :: rowsChars (r2 :: rs)

/-- A usable table line interior: nonempty and newline-free. -/
def wfRow (r : List Char) : Prop := r ≠ [] ∧ '\n' ∉ r

/-- The interior contains a character outside `[\s\-:|]`. -/
def hasNonSep (r : List Char) : Prop := ∃ c ∈ r, isSepCls c = false

/-- A well-formed markdown table: header, separator, data rows. -/
structure WfTable where
  hd : List Char
  sp : List Char
  rows : List (List Char)

/-- The rendered characters of the table. -/
def WfTable.chars (T : WfTable) : List Char :=
  rowsChars (T.hd :: T.sp :: T.rows)

/-- Well-formedness of the parts. -/
def WfTable.Wf (T : WfTable) : Prop :=
  wfRow T.hd ∧ hasNonSep T.hd ∧
  T.sp ≠ [] ∧ (∀ c ∈ T.sp, c = ' ' ∨ c = '-' ∨ c = ':' ∨ c = '|') ∧
  T.rows ≠ [] ∧ (∀ r ∈ T.rows, wfRow r ∧ hasNonSep r)

/-- Modelled from the spec: the constraint the table-aware
`RecursiveCharacterTextSplitter` configuration puts on chunk
boundaries (the splitter itself is an external `langchain` dependency
absent from this repository).  Spec §4.2/§4.3: `mark_table_boundaries`
"wraps each detected table with explicit start/end markers",
guaranteeing "the splitter never breaks a table internally";
"table-marked regions must never be split at a point strictly inside
their start/end markers".  `markedRegionsOf` locates, for the match
list of `extract_tables`, the span of each marker-delimited region in
the marked text: match `k` with span `[start, stop)` is preceded by
`k` earlier wraps of 30 inserted characters each, and its own wrap
puts `[TABLE_START]` 2 characters and the end of `[TABLE_END]`
28 characters past the shifted span (`mark_layout` below proves this
placement).  A spec-conforming chunking, given by its list of interior
cut positions, has no cut strictly inside any such region. -/
def markedRegionsOf (tables : List TableMatch) : List (Nat × Nat) :=
  tables.enum.map fun kt => (kt.2.start + 30 * kt.1 + 2, kt.2.stop + 30 * kt.1 + 28)

/-- Modelled from the spec (see `markedRegionsOf`): the cut positions
of a table-aware chunking of the marked `text` never fall strictly
inside a marker-delimited region. -/
def RespectsRegions (text : String) (cuts : List Nat) : Prop :=
  ∀ i ∈ cuts, ∀ r ∈ markedRegionsOf (extract_tables text), ¬ (r.1 < i ∧ i < r.2)

/-- Well-formedness of a scan result relative to the scanned text:
matches are ordered, disjoint, in bounds, and each match's content is
the corresponding slice of the text. -/
def WfMatches (text : List Char) : List TableMatch → Nat → Prop
  | [], _ => True
  | t :: ts, p => p ≤ t.start ∧ t.start ≤ t.stop ∧ t.stop ≤ text.length ∧
      t.content = (text.drop t.start).take (t.stop - t.start) ∧
      WfMatches text ts t.stop

/-- The spliced tail of the marker-insertion fold: everything from
position `q` on, with each match region replaced by its wrapped
content. -/
def splicedOf (text : List Char) : List TableMatch → Nat → List Char
  | [], q => text.drop q
  | t :: ts, q =>
    (text.take t.start).drop q ++ markerWrap t.content ++ splicedOf text ts t.stop

/-- Concrete pieces for exercising the table-integrity theorem. -/
def c2u : List Char := "Before\n".data

def c2v : List Char := "\nAfter".data

def c2T : WfTable := { hd := " Name ".data, sp := " --- ".data, rows := [" Alice ".data] }

/-! ## Generic facts about the scan drivers -/

theorem scanFirst_eq_none (f : List Char → Option α) :
    ∀ l : List Char, (∀ t, t <:+ l → f t = none) → scanFirst f l = none := by
  intro l
  induction l with
  | nil => intro _; rfl
  | cons c rest ih =>
    intro h
    have h0 : f (c :: rest) = none := h _ (List.suffix_refl _)
    simp only [scanFirst, h0]
    exact ih fun t ht => h t (ht.trans (List.suffix_cons c rest))

theorem scanFirst_skip (f : List Char → Option α) :
    ∀ (a rest : List Char),
      (∀ a', a' ≠ [] → a' <:+ a → f (a' ++ rest) = none) →
      scanFirst f (a ++ rest) = scanFirst f rest := by
  intro a
  induction a with
  | nil => intro rest _; rfl
  | cons c a2 ih =>
    intro rest h
    have h0 : f (c :: (a2 ++ rest)) = none := by
      have h1 := h (c :: a2) (by simp) (List.suffix_refl _)
      simpa using h1
    have step : scanFirst f ((c :: a2) ++ rest) = scanFirst f (a2 ++ rest) := by
      rw [List.cons_append]
      simp only [scanFirst, h0]
    rw [step, ih rest fun a' hne ha' => h a' hne (ha'.trans (List.suffix_cons c a2))]

theorem scanFirst_of_head (f : List Char → Option α) (l : List Char) (x : α)
    (hl : l ≠ []) (h : f l = some x) : scanFirst f l = some x := by
  cases l with
  | nil => exact absurd rfl hl
  | cons c rest => simp only [scanFirst, h]

theorem scanAll_eq_nil (f : List Char → Option (List Char × List Char)) :
    ∀ (fuel : Nat) (l : List Char), (∀ t, t <:+ l → f t = none) →
      scanAll f fuel l = [] := by
  intro fuel
  induction fuel with
  | zero => intro l _; rfl
  | succ n ih =>
    intro l h
    have h0 : f l = none := h _ (List.suffix_refl _)
    cases l with
    | nil => simp [scanAll, h0]
    | cons c rest =>
      simp only [scanAll, h0]
      exact ih rest fun t ht => h t (ht.trans (List.suffix_cons c rest))

/-- If the lowercase image of `cs` is the pattern, `cs ++ rest` is a
case-insensitive match of the pattern at its head. -/
theorem ciStartsWith_of_lower {pat cs : List Char} (rest : List Char)
    (h : lowerL cs = pat) : ciStartsWith pat (cs ++ rest) = true := by
  have hl : cs.length = pat.length := by
    have := congrArg List.length h
    simpa [lowerL] using this
  unfold ciStartsWith
  rw [← hl, List.take_left, h]
  simp

/-- `sessionSpaceAt` can only fire where a case-insensitive `session`
occurs. -/
theorem sessionSpaceAt_eq_none {l : List Char}
    (h : ciStartsWith "session".data l = false) : sessionSpaceAt l = none := by
  simp [sessionSpaceAt, h]

/-! ## Claim C5: `extract_session_number` on paths containing `Session 3` -/

/-- C5 counterexample: the path `"Session 31"` contains the substring
`"Session 3"`, yet `extract_session_number` returns `31`, not `3`
(the first `Session\s*(\d+)` match captures the maximal digit run). -/
theorem C5_counterexample :
    hasSub "Session 3".data "Session 31".data = true ∧
      extract_session_number "Session 31" = some 31 ∧ (31 : Nat) ≠ 3 := by
  refine ⟨by decide, by decide, by decide⟩

/-- C5 (amended): for every file path containing `Session 3` (in any
letter case) such that no earlier position of the path starts a
case-insensitive occurrence of `session` and the `3` is not
immediately followed by a further digit, `extract_session_number`
returns `3`.  (The counterexample `"Session 31"` forces the trailing
digit condition, and e.g. `"Session 12 Session 3"` forces the
first-occurrence condition.) -/
theorem C5_amended (a cs b : List Char)
    (hcs : lowerL cs = "session".data)
    (hb : ∀ d, b.head? = some d → isDigitCh d = false)
    (ha : ∀ a', a' ≠ [] → a' <:+ a →
      ciStartsWith "session".data (a' ++ (cs ++ ' ' :: '3' :: b)) = false) :
    extract_session_number (String.mk (a ++ (cs ++ ' ' :: '3' :: b))) = some 3 := by
  have hlen : cs.length = 7 := by
    have := congrArg List.length hcs
    simpa [lowerL] using this
  have hfirst :
      scanFirst sessionSpaceAt (a ++ (cs ++ ' ' :: '3' :: b)) = some 3 := by
    rw [scanFirst_skip sessionSpaceAt a _
      (fun a' hne ha' => sessionSpaceAt_eq_none (ha a' hne ha'))]
    apply scanFirst_of_head
    · intro hnil
      have : cs.length = 0 := by
        have := congrArg List.length hnil
        simpa using this.le.antisymm (by simp)
      omega
    · have hdrop : (cs ++ ' ' :: '3' :: b).drop 7 = ' ' :: '3' :: b := by
        rw [← hlen]; exact List.drop_left cs _
      have hci : ciStartsWith "session".data (cs ++ ' ' :: '3' :: b) = true :=
        ciStartsWith_of_lower _ hcs
      have hb' : b.takeWhile isDigitCh = [] := by
        cases b with
        | nil => rfl
        | cons d bs =>
          have := hb d rfl
          simp [List.takeWhile, this]
      simp only [sessionSpaceAt, hci, if_true, hdrop]
      have : (' ' :: '3' :: b).dropWhile pyIsSpace = '3' :: b := by
        simp [List.dropWhile, pyIsSpace]
      rw [this]
      have : ('3' :: b).takeWhile isDigitCh = ['3'] := by
        simp [List.takeWhile, isDigitCh, hb']
      rw [this]
      decide
  have hdata : (String.mk (a ++ (cs ++ ' ' :: '3' :: b))).data
      = a ++ (cs ++ ' ' :: '3' :: b) := rfl
  unfold extract_session_number
  rw [hdata, hfirst]

/-- Witness for C5 (amended) at the concrete path `"Intro Session 3"`. -/
theorem C5_amended_witness :
    extract_session_number
      (String.mk ("Intro ".data ++ ("Session".data ++ ' ' :: '3' :: []))) = some 3 := by
  apply C5_amended
  · decide
  · intro d hd; simp at hd
  · intro a' hne ha'
    have hm : a' ∈ ("Intro ".data).tails := (List.mem_tails _ _).2 ha'
    have hall : ∀ x ∈ ("Intro ".data).tails, x ≠ [] →
        ciStartsWith "session".data (x ++ ("Session".data ++ ' ' :: '3' :: [])) = false := by
      decide
    exact hall a' hm hne

/-! ## Claim C8: every metadata extractor is total -/

/-- C8: the extractors are total functions with explicit absent values:
whenever no position of the input matches any of the session patterns,
`extract_session_number` is `none`; whenever no position matches any
facilitator pattern, `extract_facilitator` is `none`; whenever no
keyword of the cascade occurs in the lowercased path,
`get_content_type` is `"general"`; and whenever no position matches
either YouTube pattern, `extract_youtube_urls` is `[]`.  (Being Lean
functions, they never raise.) -/
theorem C8_extractors_total (s : String)
    (h1 : ∀ t, t <:+ s.data →
      sessionSpaceAt t = none ∧ sessionDashAt t = none ∧ coreSessionAt t = none)
    (h2 : ∀ t, t <:+ s.data →
      facByAt t = none ∧ facDashAt t = none ∧ facShowcaseAt t = none ∧
        facFacilitatorAt t = none)
    (h3 : ∀ kw ∈ contentTypeKeywords, hasSub kw (lowerL s.data) = false)
    (h4 : ∀ t, t <:+ s.data → ytBareAt t = none ∧ ytLabeledAt t = none) :
    extract_session_number s = none ∧ extract_facilitator s = none ∧
      get_content_type s = "general" ∧ extract_youtube_urls s = [] := by
  refine ⟨?_, ?_, ?_, ?_⟩
  · have e1 : scanFirst sessionSpaceAt s.data = none :=
      scanFirst_eq_none _ _ fun t ht => (h1 t ht).1
    have e2 : scanFirst sessionDashAt s.data = none :=
      scanFirst_eq_none _ _ fun t ht => (h1 t ht).2.1
    have e3 : scanFirst coreSessionAt s.data = none :=
      scanFirst_eq_none _ _ fun t ht => (h1 t ht).2.2
    simp [extract_session_number, e1, e2, e3]
  · have e1 : scanFirst facByAt s.data = none :=
      scanFirst_eq_none _ _ fun t ht => (h2 t ht).1
    have e2 : scanFirst facDashAt s.data = none :=
      scanFirst_eq_none _ _ fun t ht => (h2 t ht).2.1
    have e3 : scanFirst facShowcaseAt s.data = none :=
      scanFirst_eq_none _ _ fun t ht => (h2 t ht).2.2.1
    have e4 : scanFirst facFacilitatorAt s.data = none :=
      scanFirst_eq_none _ _ fun t ht => (h2 t ht).2.2.2
    simp [extract_facilitator, e1, e2, e3, e4, facAccept]
  · have k01 := h3 "session 1".data (by simp [contentTypeKeywords])
    have k02 := h3 "image creation".data (by simp [contentTypeKeywords])
    have k03 := h3 "session 2".data (by simp [contentTypeKeywords])
    have k04 := h3 "4t management".data (by simp [contentTypeKeywords])
    have k05 := h3 "session 3".data (by simp [contentTypeKeywords])
    have k06 := h3 "capability".data (by simp [contentTypeKeywords])
    have k07 := h3 "session 4".data (by simp [contentTypeKeywords])
    have k08 := h3 "pitch".data (by simp [contentTypeKeywords])
    have k09 := h3 "session 5".data (by simp [contentTypeKeywords])
    have k10 := h3 "bing fa".data (by simp [contentTypeKeywords])
    have k11 := h3 "stratagem".data (by simp [contentTypeKeywords])
    have k12 := h3 "session 6".data (by simp [contentTypeKeywords])
    have k13 := h3 "community".data (by simp [contentTypeKeywords])
    have k14 := h3 "revision".data (by simp [contentTypeKeywords])
    have k15 := h3 "boardroom".data (by simp [contentTypeKeywords])
    simp [get_content_type, k01, k02, k03, k04, k05, k06, k07, k08, k09,
      k10, k11, k12, k13, k14, k15]
  · have e1 : scanAll ytBareAt s.data.length s.data = [] :=
      scanAll_eq_nil _ _ _ fun t ht => (h4 t ht).1
    have e2 : scanAll ytLabeledAt s.data.length s.data = [] :=
      scanAll_eq_nil _ _ _ fun t ht => (h4 t ht).2
    unfold extract_youtube_urls
    rw [e1, e2]
    rfl

/-- Witness for C8 at the concrete input `"zzz"`. -/
theorem C8_extractors_total_witness :
    extract_session_number "zzz" = none ∧ extract_facilitator "zzz" = none ∧
      get_content_type "zzz" = "general" ∧ extract_youtube_urls "zzz" = [] := by
  apply C8_extractors_total
  · intro t ht
    have hm : t ∈ ("zzz".data).tails := (List.mem_tails _ _).2 ht
    clear ht; revert hm; revert t; decide
  · intro t ht
    have hm : t ∈ ("zzz".data).tails := (List.mem_tails _ _).2 ht
    clear ht; revert hm; revert t; decide
  · decide
  · intro t ht
    have hm : t ∈ ("zzz".data).tails := (List.mem_tails _ _).2 ht
    clear ht; revert hm; revert t; decide

/-! ## Claim C10: table detection is coarser than table extraction -/

/-- C10: there is a text — a single pipe-delimited line with no
separator row — on which `detect_tables_in_content` is `true` while
`extract_tables` finds nothing, so `mark_table_boundaries` returns the
text unchanged (no markers inserted) and `load_document` nevertheless
selects the table-aware splitter (witnessed by a splitter that
produces two chunks on its table-aware configuration and one
otherwise). -/
theorem C10_detect_without_extract :
    ∃ t : String, detect_tables_in_content t = true ∧ extract_tables t = [] ∧
      mark_table_boundaries t = t ∧
      (load_document (fun ta _ => if ta then ["A", "B"] else ["C"])
        ⟨["doc.md"]⟩ (Except.ok [t])).length = 2 := by
  refine ⟨"|a|b|", by decide, by decide, by decide, by decide⟩

end IronLady

namespace IronLady

/-! ## Claim C7: `load_document` never propagates a failure -/

/-- C7: `load_document` is total and returns `[]` in every failure
mode: an unsupported extension (not `.docx`/`.md`/`.pdf` after
lowercasing); an exception raised while loading or processing
(`Except.error`, the `try/except` of vector_store.py:296/420-424);
and loaded content that is empty or whitespace-only. -/
theorem C7_load_document_never_raises (split : Bool → String → List String)
    (path : PyPath) (lr : Except String (List String)) :
    ((String.mk (lowerL (pySuffix path.name).data) = ".docx" ||
      String.mk (lowerL (pySuffix path.name).data) = ".md" ||
      String.mk (lowerL (pySuffix path.name).data) = ".pdf") = false →
        load_document split path lr = []) ∧
    (∀ e, lr = Except.error e → load_document split path lr = []) ∧
    (∀ docs, lr = Except.ok docs →
      (pyStrip (String.intercalate "\n\n" docs).data).isEmpty = true →
      load_document split path lr = []) := by
  refine ⟨?_, ?_, ?_⟩
  · intro h
    simp only [load_document, h, Bool.false_eq_true, if_false]
  · intro e he
    subst he
    simp [load_document]
  · intro docs hd hstrip
    subst hd
    simp [load_document, hstrip]

/-- Witness for C7: an unsupported extension, a loader exception, and
whitespace-only content each yield `[]`. -/
theorem C7_load_document_never_raises_witness :
    load_document (fun _ _ => ["X"]) ⟨["a.txt"]⟩ (Except.ok ["x"]) = [] ∧
    load_document (fun _ _ => ["X"]) ⟨["a.md"]⟩ (Except.error "boom") = [] ∧
    load_document (fun _ _ => ["X"]) ⟨["a.md"]⟩ (Except.ok [" ", " \n "]) = [] := by
  refine ⟨?_, ?_, ?_⟩
  · exact (C7_load_document_never_raises _ _ _).1 (by decide)
  · exact (C7_load_document_never_raises _ _ _).2.1 "boom" rfl
  · exact (C7_load_document_never_raises _ _ _).2.2 [" ", " \n "] rfl (by decide)

/-! ## Claim C9: missing `OPENAI_API_KEY` halts the run before any work -/

/-- C9: constructing the creator with the default `"openai"` embedding
model raises nothing in this repository's code, and `run` with an
absent `OPENAI_API_KEY` reports the missing credential and returns
before the discovery, loading or embedding stages. -/
theorem C9_missing_key_halts (discovered : List PyPath)
    (loaded : List ChunkRecord) :
    initCreator "openai" = Except.ok () ∧
    run none discovered loaded = [RunEvent.reportMissingKey] ∧
    RunEvent.discoverFiles ∉ run none discovered loaded ∧
    RunEvent.loadDocuments ∉ run none discovered loaded ∧
    RunEvent.embedBatches ∉ run none discovered loaded := by
  have hr : run none discovered loaded = [RunEvent.reportMissingKey] := rfl
  refine ⟨rfl, hr, ?_, ?_, ?_⟩ <;> simp [hr]

/-! ## Claim C4: `source_file` and `chunk_index` uniqueness -/

/-- Indices in `enumerate` output are pairwise distinct. -/
theorem pairwise_ne_fst_enum (l : List α) :
    l.enum.Pairwise (fun a b => a.1 ≠ b.1) := by
  have h : (l.enum.map Prod.fst).Nodup := by
    rw [List.enum_map_fst]; exact List.nodup_range _
  rw [List.Nodup, List.pairwise_map] at h
  exact h

/-- `load_document` either fails to `[]` or produces the enumerated
records of its chunk list. -/
theorem load_document_shape (split : Bool → String → List String)
    (path : PyPath) (lr : Except String (List String)) :
    load_document split path lr = [] ∨
    ∃ (su : String) (sn : Option Nat) (fc : Option String) (ct : String)
      (ht : Bool) (yu : List String) (chunks : List String),
      load_document split path lr =
        chunks.enum.map (mkChunkRecord path su sn fc ct ht yu chunks.length) := by
  unfold load_document
  dsimp only
  split
  · cases lr with
    | error e => exact Or.inl rfl
    | ok docs =>
      by_cases h1 : docs.isEmpty
      · left; simp [h1]
      · by_cases h2 : (pyStrip (String.intercalate "\n\n" docs).data).isEmpty
        · left; simp [h1, h2]
        · right
          refine ⟨String.mk (lowerL (pySuffix path.name).data),
            extract_session_number path.toStr, extract_facilitator path.name,
            get_content_type path.toStr,
            detect_tables_in_content (String.intercalate "\n\n" docs),
            extract_youtube_urls
              (if detect_tables_in_content (String.intercalate "\n\n" docs) then
                mark_table_boundaries (String.intercalate "\n\n" docs)
              else String.intercalate "\n\n" docs),
            (split (detect_tables_in_content (String.intercalate "\n\n" docs))
              (if detect_tables_in_content (String.intercalate "\n\n" docs) then
                mark_table_boundaries (String.intercalate "\n\n" docs)
              else String.intercalate "\n\n" docs)).map stripMarkers, ?_⟩
          simp only [h1, h2, Bool.false_eq_true, if_false]
  · exact Or.inl rfl

/-- C4 counterexample: two distinct files named `x.md` in different
folders yield records with the same `source_file` value `"x.md"` and
the same `chunk_index` `0`, so chunk indices are not pairwise distinct
within a `source_file` value. -/
theorem C4_counterexample :
    (⟨["a", "x.md"]⟩ : PyPath) ≠ ⟨["b", "x.md"]⟩ ∧
    (load_all_documents (fun _ _ => ["hello"])
        [(⟨["a", "x.md"]⟩, Except.ok ["hello"]),
         (⟨["b", "x.md"]⟩, Except.ok ["hello"])]).length = 2 ∧
    (∀ r ∈ load_all_documents (fun _ _ => ["hello"])
        [(⟨["a", "x.md"]⟩, Except.ok ["hello"]),
         (⟨["b", "x.md"]⟩, Except.ok ["hello"])],
      r.source_file = "x.md" ∧ r.chunk_index = 0) ∧
    ¬ (load_all_documents (fun _ _ => ["hello"])
        [(⟨["a", "x.md"]⟩, Except.ok ["hello"]),
         (⟨["b", "x.md"]⟩, Except.ok ["hello"])]).Pairwise
        (fun r1 r2 => r1.source_file = r2.source_file →
          r1.chunk_index ≠ r2.chunk_index) := by
  refine ⟨by decide, by decide, by decide, by decide⟩

/-- C4 (amended): every record of one `load_document` call carries the
originating file's base name as its (never-null) `source_file`, and
within that call the `chunk_index` values are pairwise distinct.
Uniqueness is keyed by the originating file, not by the `source_file`
value: two files with equal base names in different folders share a
`source_file` and repeat chunk indices, as the counterexample shows. -/
theorem C4_amended (split : Bool → String → List String) (path : PyPath)
    (lr : Except String (List String)) :
    (load_document split path lr).map ChunkRecord.source_file =
      List.replicate (load_document split path lr).length path.name ∧
    (load_document split path lr).Pairwise
      (fun r1 r2 => r1.chunk_index ≠ r2.chunk_index) := by
  rcases load_document_shape split path lr with h | ⟨su, sn, fc, ct, ht, yu, chunks, h⟩
  · rw [h]; exact ⟨rfl, List.Pairwise.nil⟩
  · rw [h]
    constructor
    · rw [List.map_map, List.length_map]
      have : (ChunkRecord.source_file ∘
          mkChunkRecord path su sn fc ct ht yu chunks.length) =
          fun _ => path.name := rfl
      rw [this, List.map_const']
    · rw [List.pairwise_map]
      exact (pairwise_ne_fst_enum chunks).imp (fun hab => hab)

end IronLady

namespace IronLady

/-- The batch partition concatenates back to the document list. -/
theorem batches100_flatten : ∀ (n : Nat) (l : List α), l.length ≤ n →
    (batches100 l).flatten = l := by
  intro n
  induction n with
  | zero =>
    intro l hl
    have : l = [] := List.length_eq_zero.mp (Nat.le_zero.mp hl)
    subst this
    simp [batches100]
  | succ n ih =>
    intro l hl
    cases l with
    | nil => simp [batches100]
    | cons x xs =>
      have hd : ((x :: xs).drop batch_size).length ≤ n := by
        simp only [List.length_drop, List.length_cons, batch_size]
        simp at hl
        omega
      rw [batches100]
      simp only [List.flatten_cons, ih _ hd, List.take_append_drop]

/-- In the C1 scenario the per-batch retry loop for batch `b` succeeds:
batch 1 (0-based) absorbs its single rate-limit failure with one sleep
of `retry_delay * 2 ** 0 = 5`, every other batch succeeds at once. -/
theorem addAttempts_scenario (err : String) (h : isRateLimitErr err = true)
    (b : Nat) :
    addAttempts (fun b' a => if b' = 1 ∧ a = 0 then some err else none)
      b 5 max_retries 0 = Except.ok (if b = 1 then [5] else []) := by
  by_cases hb : b = 1
  · subst hb
    simp [addAttempts, max_retries, h]
  · simp [addAttempts, max_retries, hb]

/-- In the C1 scenario the loop over the remaining batches commits
the batch partition in order, sleeping only for batch 1. -/
theorem addLoop_scenario (err : String) (h : isRateLimitErr err = true) :
    ∀ (n : Nat) (l : List α) (b : Nat), l.length ≤ n → 1 ≤ b →
      addLoop (fun b' a => if b' = 1 ∧ a = 0 then some err else none) 5 b l =
        Except.ok (batches100 l,
          if b = 1 ∧ l.isEmpty = false then [5] else []) := by
  intro n
  induction n with
  | zero =>
    intro l b hl _
    have : l = [] := List.length_eq_zero.mp (Nat.le_zero.mp hl)
    subst this
    simp [addLoop, batches100]
  | succ n ih =>
    intro l b hl hb
    cases l with
    | nil => simp [addLoop, batches100]
    | cons x xs =>
      have hd : ((x :: xs).drop batch_size).length ≤ n := by
        simp only [List.length_drop, List.length_cons, batch_size]
        simp at hl
        omega
      have hstep := ih ((x :: xs).drop batch_size) (b + 1) hd (by omega)
      rw [addLoop, addAttempts_scenario err h b, hstep]
      have hb1 : ¬ (b + 1 = 1 ∧ ((x :: xs).drop batch_size).isEmpty = false) := by
        rintro ⟨h1, _⟩; omega
      rw [batches100]
      simp only [if_neg hb1]
      by_cases hbb : b = 1
      · simp [hbb]
      · simp [hbb]

/-- C1: for every document list and every provider whose calls fail
exactly on the first attempt of batch 2 with a rate-limit-signature
error and succeed otherwise, `create_vector_store` commits the
consecutive `batch_size`-sized batches in order, absorbs the failure
with one backoff sleep of 5 (`retry_delay * 2 ** attempt`, attempt
capped at `max_retries = 3`), and the committed batches concatenate
back to the full document list — no document is lost. -/
theorem C1_batch_retry_no_loss (docs : List α) (err : String)
    (h : isRateLimitErr err = true) :
    create_vector_store (fun b a => if b = 1 ∧ a = 0 then some err else none)
        docs =
      Except.ok (docs.take batch_size :: batches100 (docs.drop batch_size),
        if (docs.drop batch_size).isEmpty then [] else [5]) ∧
    (docs.take batch_size :: batches100 (docs.drop batch_size)).flatten =
      docs := by
  constructor
  · unfold create_vector_store
    have hinit :
        initAttempts (fun b a => if b = 1 ∧ a = 0 then some err else none)
          max_retries 0 5 = Except.ok (5, []) := by
      simp [initAttempts, max_retries]
    rw [hinit]
    dsimp only
    rw [addLoop_scenario err h (docs.drop batch_size).length _ 1 le_rfl le_rfl]
    dsimp only
    by_cases hd : (docs.drop batch_size).isEmpty
    · simp [hd]
    · simp only [Bool.not_eq_true] at hd
      simp [hd]
  · simp only [List.flatten_cons,
      batches100_flatten (docs.drop batch_size).length _ le_rfl,
      List.take_append_drop]

/-- Witness for C1 with 150 documents and the error message
`"HTTP 429"`: batch 1 holds documents 0–99, batch 2 the remaining 50,
and one 5-second backoff sleep is logged. -/
theorem C1_batch_retry_no_loss_witness :
    isRateLimitErr "HTTP 429" = true ∧
    (create_vector_store
        (fun b a => if b = 1 ∧ a = 0 then some "HTTP 429" else none)
        (List.range 150) =
      Except.ok ((List.range 150).take batch_size ::
          batches100 ((List.range 150).drop batch_size),
        if ((List.range 150).drop batch_size).isEmpty then [] else [5]) ∧
      ((List.range 150).take batch_size ::
        batches100 ((List.range 150).drop batch_size)).flatten =
        List.range 150) :=
  ⟨by decide, C1_batch_retry_no_loss (List.range 150) "HTTP 429" (by decide)⟩

end IronLady

namespace IronLady

/-- The overlap-trimmed tail of a chunking starting at `e`
reconstructs `text.drop e`. -/
theorem trimRest_eq (text : List Char) :
    ∀ (spans : List (Nat × Nat)) (e : Nat),
      (match spans.head? with
       | some q => q.1 ≤ e ∧ e ≤ q.2
       | none => e = text.length) →
      (spans.getLast?.map Prod.snd).getD e = text.length →
      (∀ p ∈ spans, p.1 < p.2 ∧ p.2 ≤ text.length) →
      spans.Chain' (fun p q => q.1 ≤ p.2 ∧ p.1 ≤ q.1 ∧ p.2 ≤ q.2) →
      trimRest text e spans = text.drop e := by
  intro spans
  induction spans with
  | nil =>
    intro e hh _ _ _
    simp only [List.head?_nil] at hh
    simp [trimRest, hh]
  | cons q rest ih =>
    intro e hh hlast hbounds hchain
    simp only [List.head?_cons] at hh
    obtain ⟨hq1, hq2⟩ := hh
    have hqb := hbounds q (List.mem_cons_self q rest)
    have hslice : (sliceL text q).drop (e - q.1) = (text.take q.2).drop e := by
      unfold sliceL
      rw [List.drop_drop]
      congr 1
      omega
    have htail : trimRest text q.2 rest = text.drop q.2 := by
      apply ih
      · cases rest with
        | nil =>
          simp only [List.head?_nil]
          simpa [List.getLast?_singleton] using hlast
        | cons r rs =>
          simp only [List.head?_cons]
          have := List.chain'_cons.mp hchain
          exact ⟨this.1.1, this.1.2.2⟩
      · cases rest with
        | nil =>
          simpa [List.getLast?_singleton] using hlast
        | cons r rs =>
          rw [List.getLast?_cons_cons] at hlast
          obtain ⟨L, hL⟩ : ∃ L, (r :: rs).getLast? = some L :=
            ⟨_, List.getLast?_eq_getLast _ (by simp)⟩
          rw [hL] at hlast ⊢
          simpa using hlast
      · exact fun p hp => hbounds p (List.mem_cons_of_mem q hp)
      · exact (List.chain'_cons'.mp hchain).2
    rw [trimRest, hslice, htail]
    have hsplit : text.drop e = (text.take q.2).drop e ++ text.drop q.2 := by
      conv_lhs => rw [← List.take_append_drop q.2 text]
      rw [List.drop_append_of_le_length]
      rw [List.length_take]
      omega
    rw [hsplit]

/-- C3 (spec-modelled splitter): for every nonempty document text and
every chunking satisfying the splitter contract of spec §4.3,
concatenating the chunks after removing from each one the overlap
region it shares with its predecessor reconstructs exactly the full
original document — full coverage, no gaps. -/
theorem C3_chunk_round_trip (text : List Char) (spans : List (Nat × Nat))
    (_hne : text ≠ []) (h : ValidSplit text spans) :
    dropOverlapConcat text spans = text := by
  obtain ⟨hspans, hhead, hlast, hbounds, hchain⟩ := h
  cases spans with
  | nil => exact absurd rfl hspans
  | cons p rest =>
    simp only [List.head?_cons, Option.map_some'] at hhead
    have hp1 : p.1 = 0 := by
      have := Option.some.inj hhead
      omega
    have hpb := hbounds p (List.mem_cons_self p rest)
    have hslice : sliceL text p = text.take p.2 := by
      unfold sliceL
      rw [hp1, List.drop_zero]
    have htail : trimRest text p.2 rest = text.drop p.2 := by
      apply trimRest_eq
      · cases rest with
        | nil =>
          simp only [List.head?_nil]
          simpa [List.getLast?_singleton] using hlast
        | cons r rs =>
          simp only [List.head?_cons]
          have := List.chain'_cons.mp hchain
          exact ⟨this.1.1, this.1.2.2⟩
      · cases rest with
        | nil => simpa [List.getLast?_singleton] using hlast
        | cons r rs =>
          rw [List.getLast?_cons_cons] at hlast
          simp [hlast]
      · exact fun q hq => hbounds q (List.mem_cons_of_mem p hq)
      · exact (List.chain'_cons'.mp hchain).2
    rw [dropOverlapConcat, hslice, htail, List.take_append_drop]

/-- Witness for C3: the text `"abcdefgh"` split into overlapping spans
`(0,5)` and `(3,8)` (overlap 2) reconstructs the original. -/
theorem C3_chunk_round_trip_witness :
    dropOverlapConcat "abcdefgh".data [(0, 5), (3, 8)] = "abcdefgh".data :=
  C3_chunk_round_trip "abcdefgh".data [(0, 5), (3, 8)] (by decide)
    ⟨by decide, by decide, by decide, by decide,
      by simp [List.chain'_cons, List.chain'_singleton]⟩

end IronLady

namespace IronLady

/-! ## Claim C6: structure of successful matches of the bare YouTube
pattern

The key fact (`ytBareAt_shelters`) is that every successful match of
the first pattern decomposes as protocol, optional `www.`, anchor and
an 11-character id, none of which can contain a colon outside the
protocol — so a match that starts before an occurrence of
`://youtu.be/<id>` either stays in front of it or captures exactly
`<id>`. -/

theorem orElse_some {a b : Option α} {x : α} (h : (a <|> b) = some x) :
    a = some x ∨ (a = none ∧ b = some x) := by
  cases ha : a <;> simp [ha] at h <;> simp [h]

/-- A successful case-insensitive literal prefix test splits the input. -/
theorem ciStartsWith_true {pat l : List Char}
    (h : ciStartsWith pat l = true) :
    ∃ x, lowerL x = pat ∧ x.length = pat.length ∧ l = x ++ l.drop pat.length := by
  refine ⟨l.take pat.length, ?_, ?_, (List.take_append_drop _ _).symm⟩
  · exact eq_of_beq h
  · have hl := congrArg List.length (eq_of_beq (α := List Char) h)
    simpa [lowerL] using hl

theorem ytIdTake_some {l cap rest : List Char}
    (h : ytIdTake l = some (cap, rest)) :
    cap.length = 11 ∧ (∀ c ∈ cap, isVideoIdCh c = true) ∧ l = cap ++ rest := by
  unfold ytIdTake at h
  by_cases hc : ((l.take 11).length = 11 && (l.take 11).all isVideoIdCh) = true
  · rw [if_pos hc] at h
    have hc' : (l.take 11).length = 11 ∧ (l.take 11).all isVideoIdCh = true := by
      simpa [Bool.and_eq_true] using hc
    simp only [Option.some.injEq, Prod.mk.injEq] at h
    obtain ⟨h1, h2⟩ := h
    subst h1; subst h2
    refine ⟨?_, ?_, (List.take_append_drop _ _).symm⟩
    · simpa using hc'.1
    · exact fun c hc2 => List.all_eq_true.mp hc'.2 c hc2
  · rw [if_neg hc] at h
    exact absurd h (by simp)

theorem ytCore_some {l cap rest : List Char}
    (h : ytCore l = some (cap, rest)) :
    ∃ A, (lowerL A = "youtube.com/watch?v=".data ∨ lowerL A = "youtu.be/".data) ∧
      cap.length = 11 ∧ (∀ c ∈ cap, isVideoIdCh c = true) ∧
      l = A ++ (cap ++ rest) := by
  unfold ytCore at h
  have step : ∀ (pat : List Char) (n : Nat), pat.length = n →
      (if ciStartsWith pat l = true then ytIdTake (l.drop n) else none) =
        some (cap, rest) →
      ∃ A, lowerL A = pat ∧ cap.length = 11 ∧
        (∀ c ∈ cap, isVideoIdCh c = true) ∧ l = A ++ (cap ++ rest) := by
    intro pat n hn h'
    by_cases h1 : ciStartsWith pat l = true
    · rw [if_pos h1] at h'
      obtain ⟨A, hA, _, hsplit⟩ := ciStartsWith_true h1
      obtain ⟨hc1, hc2, hc3⟩ := ytIdTake_some h'
      exact ⟨A, hA, hc1, hc2, by rw [hsplit, hn, hc3]⟩
    · rw [if_neg h1] at h'
      exact absurd h' (by simp)
  rcases orElse_some h with h' | ⟨_, h'⟩
  · obtain ⟨A, hA, h2, h3, h4⟩ := step "youtube.com/watch?v=".data 20 (by decide) h'
    exact ⟨A, Or.inl hA, h2, h3, h4⟩
  · obtain ⟨A, hA, h2, h3, h4⟩ := step "youtu.be/".data 9 (by decide) h'
    exact ⟨A, Or.inr hA, h2, h3, h4⟩

theorem ytAfterWww_some {l cap rest : List Char}
    (h : ytAfterWww l = some (cap, rest)) :
    ∃ W A, (W = [] ∨ lowerL W = "www.".data) ∧
      (lowerL A = "youtube.com/watch?v=".data ∨ lowerL A = "youtu.be/".data) ∧
      cap.length = 11 ∧ (∀ c ∈ cap, isVideoIdCh c = true) ∧
      l = W ++ (A ++ (cap ++ rest)) := by
  unfold ytAfterWww at h
  rcases orElse_some h with h' | ⟨_, h'⟩
  · by_cases h1 : ciStartsWith "www.".data l = true
    · rw [if_pos h1] at h'
      obtain ⟨W, hW, _, hsplit⟩ := ciStartsWith_true h1
      obtain ⟨A, hA, h2, h3, h4⟩ := ytCore_some h'
      refine ⟨W, A, Or.inr hW, hA, h2, h3, ?_⟩
      rw [hsplit]
      have : ("www.".data).length = 4 := by decide
      rw [this, h4]
    · rw [if_neg h1] at h'
      exact absurd h' (by simp)
  · obtain ⟨A, hA, h2, h3, h4⟩ := ytCore_some h'
    exact ⟨[], A, Or.inl rfl, hA, h2, h3, by simpa using h4⟩

theorem ytBareAt_some {l cap rest : List Char}
    (h : ytBareAt l = some (cap, rest)) :
    ∃ P W A,
      (P = [] ∨ lowerL P = "https://".data ∨ lowerL P = "http://".data) ∧
      (W = [] ∨ lowerL W = "www.".data) ∧
      (lowerL A = "youtube.com/watch?v=".data ∨ lowerL A = "youtu.be/".data) ∧
      cap.length = 11 ∧ (∀ c ∈ cap, isVideoIdCh c = true) ∧
      l = P ++ (W ++ (A ++ (cap ++ rest))) := by
  unfold ytBareAt at h
  have step : ∀ (pat : List Char) (n : Nat), pat.length = n →
      (if ciStartsWith pat l = true then ytAfterWww (l.drop n) else none) =
        some (cap, rest) →
      ∃ P W A, lowerL P = pat ∧ (W = [] ∨ lowerL W = "www.".data) ∧
        (lowerL A = "youtube.com/watch?v=".data ∨ lowerL A = "youtu.be/".data) ∧
        cap.length = 11 ∧ (∀ c ∈ cap, isVideoIdCh c = true) ∧
        l = P ++ (W ++ (A ++ (cap ++ rest))) := by
    intro pat n hn h'
    by_cases h1 : ciStartsWith pat l = true
    · rw [if_pos h1] at h'
      obtain ⟨P, hP, _, hsplit⟩ := ciStartsWith_true h1
      obtain ⟨W, A, hW, hA, h2, h3, h4⟩ := ytAfterWww_some h'
      exact ⟨P, W, A, hP, hW, hA, h2, h3, by rw [hsplit, hn, h4]⟩
    · rw [if_neg h1] at h'
      exact absurd h' (by simp)
  rcases orElse_some h with h' | ⟨_, h'⟩
  · obtain ⟨P, W, A, hP, hW, hA, h2, h3, h4⟩ :=
      step "https://".data 8 (by decide) h'
    exact ⟨P, W, A, Or.inr (Or.inl hP), hW, hA, h2, h3, h4⟩
  · rcases orElse_some h' with h'' | ⟨_, h''⟩
    · obtain ⟨P, W, A, hP, hW, hA, h2, h3, h4⟩ :=
        step "http://".data 7 (by decide) h''
      exact ⟨P, W, A, Or.inr (Or.inr hP), hW, hA, h2, h3, h4⟩
    · obtain ⟨W, A, hW, hA, h2, h3, h4⟩ := ytAfterWww_some h''
      exact ⟨[], W, A, Or.inl rfl, hW, hA, h2, h3, by simpa using h4⟩

end IronLady

namespace IronLady

theorem length_lower {A lit : List Char} (h : lowerL A = lit) :
    A.length = lit.length := by
  have h2 := congrArg List.length h
  simpa [lowerL] using h2

theorem colon_not_mem_of_lower {A lit : List Char} (hA : lowerL A = lit)
    (hn : (':' : Char) ∉ lit) : (':' : Char) ∉ A := by
  intro hmem
  apply hn
  rw [← hA]
  have h2 : lowerCh ':' ∈ lowerL A := List.mem_map_of_mem lowerCh hmem
  have e : lowerCh ':' = ':' := by decide
  rw [e] at h2
  exact h2

theorem colon_not_mem_cap {cap : List Char}
    (h : ∀ c ∈ cap, isVideoIdCh c = true) : (':' : Char) ∉ cap := by
  intro hmem
  exact absurd (h _ hmem) (by decide)

/-- Sheltering: a successful bare-pattern match on a text of the form
`u ++ "://youtu.be/" ++ id ++ v` (with `id` of length 11) either
captures exactly `id`, or ends before the `://` — its remainder still
contains the occurrence intact and is strictly shorter. -/
theorem ytBareAt_shelters (u v id : List Char) (h11 : id.length = 11)
    {cap rest : List Char}
    (h : ytBareAt (u ++ ("://youtu.be/".data ++ (id ++ v))) = some (cap, rest)) :
    cap = id ∨
      ∃ u', rest = u' ++ ("://youtu.be/".data ++ (id ++ v)) ∧
        rest.length < (u ++ ("://youtu.be/".data ++ (id ++ v))).length := by
  obtain ⟨P, W, A, hP, hW, hA, hcl, hcc, hw⟩ := ytBareAt_some h
  have hAlen : 9 ≤ A.length := by
    rcases hA with hA | hA
    · rw [length_lower hA]; decide
    · rw [length_lower hA]; decide
  have hw' : u ++ ("://youtu.be/".data ++ (id ++ v)) =
      (P ++ (W ++ (A ++ cap))) ++ rest := by
    rw [hw]; simp [List.append_assoc]
  have hnpos : 0 < (P ++ (W ++ (A ++ cap))).length := by
    simp only [List.length_append]
    omega
  by_cases hcase : (P ++ (W ++ (A ++ cap))).length ≤ u.length
  · right
    have hrest : (u ++ ("://youtu.be/".data ++ (id ++ v))).drop
        (P ++ (W ++ (A ++ cap))).length = rest := by
      rw [hw']; exact List.drop_left _ _
    refine ⟨u.drop (P ++ (W ++ (A ++ cap))).length, ?_, ?_⟩
    · rw [← hrest, List.drop_append_of_le_length hcase]
    · rw [← hrest, List.length_drop]
      have hlen : (P ++ (W ++ (A ++ cap))).length ≤
          (u ++ ("://youtu.be/".data ++ (id ++ v))).length := by
        simp only [List.length_append]
        simp only [List.length_append] at hcase
        omega
      omega
  · push_neg at hcase
    have hwcolon : (u ++ ("://youtu.be/".data ++ (id ++ v)))[u.length]? =
        some ':' := by
      rw [List.getElem?_append_right (le_refl u.length)]
      simp
    rw [hw', List.getElem?_append_left hcase] at hwcolon
    by_cases hiP : u.length < P.length
    · have hPiq : P[u.length]? = some ':' := by
        rw [List.getElem?_append_left hiP] at hwcolon
        exact hwcolon
      have hPlower : (lowerL P)[u.length]? = some ':' := by
        rw [lowerL, List.getElem?_map, hPiq]
        decide
      have hP3 : P.length = u.length + 3 := by
        rcases hP with hPnil | hPl | hPl
        · rw [hPnil] at hiP; simp at hiP
        · rw [hPl] at hPlower
          have hPlen : P.length = 8 := length_lower hPl
          have hb : u.length < 8 := by omega
          have hu5 : u.length = 5 := by
            interval_cases h : u.length
            · exact absurd hPlower (by decide)
            · exact absurd hPlower (by decide)
            · exact absurd hPlower (by decide)
            · exact absurd hPlower (by decide)
            · exact absurd hPlower (by decide)
            · rfl
            · exact absurd hPlower (by decide)
            · exact absurd hPlower (by decide)
          omega
        · rw [hPl] at hPlower
          have hPlen : P.length = 7 := length_lower hPl
          have hb : u.length < 7 := by omega
          have hu4 : u.length = 4 := by
            interval_cases h : u.length
            · exact absurd hPlower (by decide)
            · exact absurd hPlower (by decide)
            · exact absurd hPlower (by decide)
            · exact absurd hPlower (by decide)
            · rfl
            · exact absurd hPlower (by decide)
            · exact absurd hPlower (by decide)
          omega
      have hTail : W ++ (A ++ (cap ++ rest)) = "youtu.be/".data ++ (id ++ v) := by
        have h1 : (u ++ ("://youtu.be/".data ++ (id ++ v))).drop P.length =
            W ++ (A ++ (cap ++ rest)) := by
          rw [hw]; exact List.drop_left _ _
        have h2 : (u ++ ("://youtu.be/".data ++ (id ++ v))).drop P.length =
            "youtu.be/".data ++ (id ++ v) := by
          rw [hP3, List.drop_append, List.drop_append_of_le_length (by decide)]
          congr 1
        rw [← h1, h2]
      have hWnil : W = [] := by
        rcases hW with hWnil | hWl
        · exact hWnil
        · exfalso
          have hWlen : W.length = 4 := by
            have := length_lower hWl
            simpa using this
          have hWeq : W = ("youtu.be/".data ++ (id ++ v)).take 4 := by
            have h3 := congrArg (List.take W.length) hTail
            rw [List.take_left] at h3
            rw [h3, hWlen]
          have h4 : lowerL W = "yout".data := by
            rw [hWeq, List.take_append_of_le_length (by decide)]
            decide
          rw [hWl] at h4
          exact absurd h4 (by decide)
      rw [hWnil, List.nil_append] at hTail
      rcases hA with hAl | hAl
      · exfalso
        have hAlen20 : A.length = 20 := length_lower hAl
        have hAeq : A = ("youtu.be/".data ++ (id ++ v)).take 20 := by
          have h3 := congrArg (List.take A.length) hTail
          rw [List.take_left] at h3
          rw [h3, hAlen20]
        have h5 : A[5]? = some '.' := by
          rw [hAeq, List.getElem?_take_of_lt (by decide),
            List.getElem?_append_left (by decide)]
          decide
        have h5' : (lowerL A)[5]? = some 'b' := by
          rw [hAl]; decide
        rw [lowerL, List.getElem?_map, h5] at h5'
        exact absurd h5' (by decide)
      · left
        have hAlen9 : A.length = 9 := length_lower hAl
        have hsplit2 := List.append_inj hTail (by rw [hAlen9]; decide)
        exact (List.append_inj hsplit2.2 (by rw [hcl, h11])).1
    · exfalso
      push_neg at hiP
      rw [List.getElem?_append_right hiP] at hwcolon
      have hmem : (':' : Char) ∈ W ++ (A ++ cap) := List.getElem?_mem hwcolon
      rcases List.mem_append.mp hmem with hm | hm
      · rcases hW with hWnil | hWl
        · rw [hWnil] at hm; simp at hm
        · exact colon_not_mem_of_lower hWl (by decide) hm
      · rcases List.mem_append.mp hm with hm2 | hm2
        · rcases hA with hAl | hAl
          · exact colon_not_mem_of_lower hAl (by decide) hm2
          · exact colon_not_mem_of_lower hAl (by decide) hm2
        · exact colon_not_mem_cap hcc hm2

end IronLady

namespace IronLady

/-- A case-insensitive prefix test fails when already the first
characters disagree after lowercasing. -/
theorem ciStartsWith_cons_ne (p0 c : Char) (pat' l : List Char)
    (h : lowerCh c ≠ p0) : ciStartsWith (p0 :: pat') (c :: l) = false := by
  unfold ciStartsWith
  rw [beq_eq_false_iff_ne]
  intro heq
  apply h
  have h2 : (lowerL ((c :: l).take (p0 :: pat').length)).head? = some p0 := by
    rw [heq]; rfl
  rw [List.length_cons, List.take_succ_cons] at h2
  simpa [lowerL] using h2

/-- No bare-pattern match can start at a slash. -/
theorem ytBareAt_slash (w' : List Char) : ytBareAt ('/' :: w') = none := by
  unfold ytBareAt ytAfterWww ytCore
  rw [show "https://".data = 'h' :: "ttps://".data from rfl,
    show "http://".data = 'h' :: "ttp://".data from rfl,
    show "www.".data = 'w' :: "ww.".data from rfl,
    show "youtube.com/watch?v=".data = 'y' :: "outube.com/watch?v=".data from rfl,
    show "youtu.be/".data = 'y' :: "outu.be/".data from rfl]
  rw [ciStartsWith_cons_ne _ _ _ _ (by decide),
    ciStartsWith_cons_ne _ _ _ _ (by decide),
    ciStartsWith_cons_ne _ _ _ _ (by decide),
    ciStartsWith_cons_ne _ _ _ _ (by decide),
    ciStartsWith_cons_ne _ _ _ _ (by decide)]
  rfl

/-- At the `youtu.be/` anchor the bare pattern matches and captures
exactly the next eleven id characters. -/
theorem ytBareAt_at_anchor (id v : List Char) (h11 : id.length = 11)
    (hcls : ∀ c ∈ id, isVideoIdCh c = true) :
    ytBareAt ("youtu.be/".data ++ (id ++ v)) = some (id, v) := by
  have hcons : "youtu.be/".data ++ (id ++ v) =
      'y' :: ("outu.be/".data ++ (id ++ v)) := rfl
  have hhttps : ciStartsWith "https://".data ("youtu.be/".data ++ (id ++ v)) = false := by
    rw [hcons, show "https://".data = 'h' :: "ttps://".data from rfl]
    exact ciStartsWith_cons_ne _ _ _ _ (by decide)
  have hhttp : ciStartsWith "http://".data ("youtu.be/".data ++ (id ++ v)) = false := by
    rw [hcons, show "http://".data = 'h' :: "ttp://".data from rfl]
    exact ciStartsWith_cons_ne _ _ _ _ (by decide)
  have hwww : ciStartsWith "www.".data ("youtu.be/".data ++ (id ++ v)) = false := by
    rw [hcons, show "www.".data = 'w' :: "ww.".data from rfl]
    exact ciStartsWith_cons_ne _ _ _ _ (by decide)
  have h20 : ciStartsWith "youtube.com/watch?v=".data
      ("youtu.be/".data ++ (id ++ v)) = false := by
    by_contra hcon
    rw [Bool.not_eq_false] at hcon
    unfold ciStartsWith at hcon
    have heq := eq_of_beq hcon
    have h5 := congrArg (fun l : List Char => l[5]?) heq
    simp only [lowerL] at h5
    rw [List.getElem?_map, List.getElem?_take_of_lt (by decide),
      List.getElem?_append_left (by decide)] at h5
    exact absurd h5 (by decide)
  have h9 : ciStartsWith "youtu.be/".data ("youtu.be/".data ++ (id ++ v)) = true := by
    unfold ciStartsWith
    rw [List.take_append_of_le_length (by decide)]
    decide
  have hdrop9 : ("youtu.be/".data ++ (id ++ v)).drop ("youtu.be/".data).length =
      id ++ v := List.drop_left _ _
  unfold ytBareAt ytAfterWww ytCore
  rw [hhttps, hhttp, hwww, h20, h9]
  simp only [Bool.false_eq_true, if_false, if_true]
  have hid : ytIdTake (id ++ v) = some (id, v) := by
    unfold ytIdTake
    have ht : (id ++ v).take 11 = id := by
      rw [← h11]; exact List.take_left _ _
    have hd : (id ++ v).drop 11 = v := by
      rw [← h11]; exact List.drop_left _ _
    rw [ht, hd, if_pos]
    rw [Bool.and_eq_true]
    exact ⟨by rw [h11]; rfl, List.all_eq_true.mpr hcls⟩
  have hdrop9' : ("youtu.be/".data ++ (id ++ v)).drop 9 = id ++ v := by
    simpa using hdrop9
  rw [hdrop9', hid]
  rfl

/-- The findall scan over any text that still contains the protected
occurrence `://youtu.be/<id>` (or its exposed tail once the scan has
stepped into the `://`) captures `id`: matches starting earlier
cannot consume past the colon without capturing `id` itself. -/
theorem scanAll_captures (id : List Char) (h11 : id.length = 11)
    (hcls : ∀ c ∈ id, isVideoIdCh c = true) :
    ∀ (fuel : Nat) (w : List Char), w.length ≤ fuel →
      ((∃ u v, w = u ++ ("://youtu.be/".data ++ (id ++ v))) ∨
       (∃ t v, (t = "//".data ∨ t = "/".data ∨ t = ([] : List Char)) ∧
          w = t ++ ("youtu.be/".data ++ (id ++ v)))) →
      id ∈ scanAll ytBareAt fuel w := by
  intro fuel
  induction fuel with
  | zero =>
    intro w hle hinv
    exfalso
    have h12 : ("://youtu.be/".data).length = 12 := by decide
    have h9 : ("youtu.be/".data).length = 9 := by decide
    rcases hinv with ⟨u, v, rfl⟩ | ⟨t, v, _, rfl⟩ <;>
      simp only [List.length_append] at hle <;> omega
  | succ n ih =>
    intro w hle hinv
    cases hm : ytBareAt w with
    | some pr =>
      obtain ⟨cap, rest⟩ := pr
      rcases hinv with ⟨u, v, hwu⟩ | ⟨t, v, ht, hwt⟩
      · subst hwu
        rcases ytBareAt_shelters u v id h11 hm with hcap | ⟨u', hrest, hlt⟩
        · subst hcap
          simp only [scanAll, hm]
          exact List.mem_cons_self _ _
        · have hrec := ih rest (by omega) (Or.inl ⟨u', v, hrest⟩)
          simp only [scanAll, hm]
          exact List.mem_cons_of_mem _ hrec
      · rcases ht with rfl | rfl | rfl
        · exfalso
          rw [hwt, show "//".data ++ ("youtu.be/".data ++ (id ++ v)) =
            '/' :: ('/' :: ("youtu.be/".data ++ (id ++ v))) from rfl,
            ytBareAt_slash] at hm
          exact Option.noConfusion hm
        · exfalso
          rw [hwt, show "/".data ++ ("youtu.be/".data ++ (id ++ v)) =
            '/' :: ("youtu.be/".data ++ (id ++ v)) from rfl,
            ytBareAt_slash] at hm
          exact Option.noConfusion hm
        · have hanchor : ytBareAt w = some (id, v) := by
            rw [hwt, List.nil_append]
            exact ytBareAt_at_anchor id v h11 hcls
          rw [hm] at hanchor
          have h2 := Option.some.inj hanchor
          simp only [Prod.mk.injEq] at h2
          simp only [scanAll, hm]
          rw [h2.1]
          exact List.mem_cons_self _ _
    | none =>
      rcases hinv with ⟨u, v, hwu⟩ | ⟨t, v, ht, hwt⟩
      · cases u with
        | nil =>
          have hdec : w = ':' :: ("//".data ++ ("youtu.be/".data ++ (id ++ v))) := by
            rw [hwu]; rfl
          have hlen : ("//".data ++ ("youtu.be/".data ++ (id ++ v))).length ≤ n := by
            rw [hwu] at hle
            simp only [List.length_append, List.length_cons,
              List.length_nil] at hle ⊢
            omega
          rw [hdec] at hm ⊢
          simp only [scanAll, hm]
          exact ih _ hlen (Or.inr ⟨"//".data, v, Or.inl rfl, rfl⟩)
        | cons c u' =>
          have hdec : w = c :: (u' ++ ("://youtu.be/".data ++ (id ++ v))) := by
            rw [hwu]; rfl
          have hlen : (u' ++ ("://youtu.be/".data ++ (id ++ v))).length ≤ n := by
            rw [hwu] at hle
            simp only [List.length_append, List.length_cons,
              List.length_nil] at hle ⊢
            omega
          rw [hdec] at hm ⊢
          simp only [scanAll, hm]
          exact ih _ hlen (Or.inl ⟨u', v, rfl⟩)
      · rcases ht with rfl | rfl | rfl
        · have hdec : w = '/' :: ("/".data ++ ("youtu.be/".data ++ (id ++ v))) := by
            rw [hwt]; rfl
          have hlen : ("/".data ++ ("youtu.be/".data ++ (id ++ v))).length ≤ n := by
            rw [hwt] at hle
            simp only [List.length_append, List.length_cons,
              List.length_nil] at hle ⊢
            omega
          rw [hdec] at hm ⊢
          simp only [scanAll, hm]
          exact ih _ hlen (Or.inr ⟨"/".data, v, Or.inr (Or.inl rfl), rfl⟩)
        · have hdec : w = '/' :: ("youtu.be/".data ++ (id ++ v)) := by
            rw [hwt]; rfl
          have hlen : ("youtu.be/".data ++ (id ++ v)).length ≤ n := by
            rw [hwt] at hle
            simp only [List.length_append, List.length_cons,
              List.length_nil] at hle ⊢
            omega
          rw [hdec] at hm ⊢
          simp only [scanAll, hm]
          exact ih _ hlen (Or.inr ⟨[], v, Or.inr (Or.inr rfl), by simp⟩)
        · exfalso
          rw [hwt, List.nil_append,
            ytBareAt_at_anchor id v h11 hcls] at hm
          exact Option.noConfusion hm

end IronLady

namespace IronLady

/-- C6: for every text containing both the bare short URL
`https://youtu.be/<id>` and the labelled form
`video url: https://youtube.com/watch?v=<id>` for the same
11-character id (with arbitrary surrounding text), the canonical URL
for that id occurs exactly once in `extract_youtube_urls`' output:
the `set`-based deduplication never emits the same id twice. -/
theorem C6_youtube_single_canonical (a b c id : List Char)
    (h11 : id.length = 11) (hcls : ∀ ch ∈ id, isVideoIdCh ch = true) :
    (extract_youtube_urls (String.mk
        (a ++ ("https://youtu.be/".data ++ (id ++
          (b ++ ("video url: https://youtube.com/watch?v=".data ++
            (id ++ c)))))))).count
      ("https://www.youtube.com/watch?v=" ++ String.mk id) = 1 := by
  have hre :
      a ++ ("https://youtu.be/".data ++ (id ++
        (b ++ ("video url: https://youtube.com/watch?v=".data ++ (id ++ c))))) =
      (a ++ "https".data) ++ ("://youtu.be/".data ++ (id ++
        (b ++ ("video url: https://youtube.com/watch?v=".data ++ (id ++ c))))) := by
    rw [show "https://youtu.be/".data = "https".data ++ "://youtu.be/".data from rfl]
    simp [List.append_assoc]
  have hmem1 : id ∈ scanAll ytBareAt
      (a ++ ("https://youtu.be/".data ++ (id ++
        (b ++ ("video url: https://youtube.com/watch?v=".data ++
          (id ++ c)))))).length
      (a ++ ("https://youtu.be/".data ++ (id ++
        (b ++ ("video url: https://youtube.com/watch?v=".data ++
          (id ++ c)))))) := by
    apply scanAll_captures id h11 hcls _ _ le_rfl
    exact Or.inl ⟨a ++ "https".data, _, hre⟩
  unfold extract_youtube_urls
  have hinj : Function.Injective
      (fun ids : List Char =>
        "https://www.youtube.com/watch?v=" ++ String.mk ids) := by
    intro x y hxy
    have hd : "https://www.youtube.com/watch?v=".data ++ x =
        "https://www.youtube.com/watch?v=".data ++ y :=
      congrArg String.data hxy
    exact List.append_cancel_left hd
  rw [List.count_map_of_injective _ _ hinj]
  exact List.count_eq_one_of_mem (List.nodup_dedup _)
    (List.mem_dedup.mpr (List.mem_append_left _ hmem1))

end IronLady

namespace IronLady

/-- Witness for C6 at a concrete text containing the bare and the
labelled URL for the id `abcdefghijk`. -/
theorem C6_youtube_single_canonical_witness :
    (extract_youtube_urls (String.mk
        ("see ".data ++ ("https://youtu.be/".data ++ ("abcdefghijk".data ++
          (" and ".data ++ ("video url: https://youtube.com/watch?v=".data ++
            ("abcdefghijk".data ++ "!".data)))))))).count
      ("https://www.youtube.com/watch?v=" ++ String.mk "abcdefghijk".data) = 1 :=
  C6_youtube_single_canonical "see ".data " and ".data "!".data
    "abcdefghijk".data (by decide) (by decide)

end IronLady

namespace IronLady

/-- `[^\n]*\|` succeeds when a pipe arrives before any newline. -/
theorem pipeCloseAhead_of {a : List Char} (ha : '\n' ∉ a) (z : List Char) :
    pipeCloseAhead (a ++ '|' :: z) = true := by
  induction a with
  | nil => rfl
  | cons c cs ih =>
    have hc : c ≠ '\n' := fun h => ha (h ▸ List.mem_cons_self c cs)
    by_cases hp : c = '|'
    · simp [pipeCloseAhead, hp]
    · simp only [List.cons_append, pipeCloseAhead, if_neg hp, if_neg hc]
      exact ih fun h => ha (List.mem_cons_of_mem c h)

/-- A rendered well-formed table starts with a matching `\|[^\n]+\|`. -/
theorem pipeRowAt_table (T : WfTable) (hwf : T.Wf) (z : List Char) :
    pipeRowAt (T.chars ++ z) = true := by
  obtain ⟨⟨hne, hnl⟩, _, _, _, _, _⟩ := hwf
  cases hhd : T.hd with
  | nil => exact absurd hhd hne
  | cons c cs =>
    have hc : c ≠ '\n' := fun h => hnl (hhd ▸ h ▸ List.mem_cons_self c cs)
    have hcs : '\n' ∉ cs := fun h => hnl (hhd ▸ List.mem_cons_of_mem c h)
    have hshape : T.chars ++ z =
        '|' :: c :: (cs ++ '|' :: (('\n' :: rowsChars (T.sp :: T.rows)) ++ z)) := by
      show rowsChars (T.hd :: T.sp :: T.rows) ++ z = _
      rw [rowsChars, hhd, rowChars]
      simp [List.append_assoc]
    rw [hshape]
    simp only [pipeRowAt]
    rw [Bool.and_eq_true]
    constructor
    · simpa using hc
    · exact pipeCloseAhead_of hcs _

/-- C2, first half: `detect_tables_in_content` is true on any text
containing a rendered well-formed table. -/
theorem detect_tables_of_wf (u v : List Char) (T : WfTable) (hwf : T.Wf) :
    detect_tables_in_content (String.mk (u ++ (T.chars ++ v))) = true := by
  unfold detect_tables_in_content
  show hasPipeRow (u ++ (T.chars ++ v)) = true
  induction u with
  | nil =>
    simp only [List.nil_append]
    cases hc : T.chars ++ v with
    | nil =>
      exfalso
      have := pipeRowAt_table T hwf v
      rw [hc] at this
      simp [pipeRowAt] at this
    | cons x xs =>
      rw [← hc]
      have hp := pipeRowAt_table T hwf v
      rw [hc] at hp ⊢
      simp [hasPipeRow, hp]
  | cons x xs ih =>
    simp only [List.cons_append, hasPipeRow]
    rw [Bool.or_eq_true]
    exact Or.inr ih

end IronLady

namespace IronLady

theorem takeWhile_append_all {p : Char → Bool} {a : List Char}
    (ha : ∀ x ∈ a, p x = true) (b : List Char) :
    (a ++ b).takeWhile p = a ++ b.takeWhile p := by
  induction a with
  | nil => rfl
  | cons c cs ih =>
    have hc := ha c (List.mem_cons_self c cs)
    simp only [List.cons_append, List.takeWhile_cons, hc, if_true]
    rw [ih fun x hx => ha x (List.mem_cons_of_mem c hx)]

theorem lastPipeIdx_concat (xs : List Char) :
    lastPipeIdx (xs ++ ['|']) = some xs.length := by
  unfold lastPipeIdx
  rw [List.enum_append]
  have h1 : List.enumFrom xs.length ['|'] = [(xs.length, '|')] := rfl
  rw [h1, List.filter_append]
  have h2 : List.filter (fun p => p.2 = '|') [(xs.length, '|')] =
      [(xs.length, '|')] := by simp
  rw [h2]
  rw [show List.filter (fun p => p.2 = '|') xs.enum ++ [(xs.length, '|')] =
    (List.filter (fun p => p.2 = '|') xs.enum ++ [(xs.length, '|')]) from rfl]
  rw [List.getLast?_concat]
  rfl

/-- The length of a rendered line. -/
theorem rowChars_length (r : List Char) : (rowChars r).length = r.length + 2 := by
  simp [rowChars]

theorem rowsChars_length_cons (r r2 : List Char) (rs : List (List Char)) :
    (rowsChars (r :: r2 :: rs)).length =
      (rowChars r).length + 1 + (rowsChars (r2 :: rs)).length := by
  simp [rowsChars]
  omega

/-- One data-row unit `\|[^\n]+\|\n?` on a rendered line: it consumes
the line and a directly following newline. -/
theorem tblRowUnit_rowChars (r : List Char) (hr : wfRow r) (z : List Char)
    (hz : z = [] ∨ z.head? = some '\n') :
    tblRowUnit (rowChars r ++ z) =
      some (r.length + 2 + (if z.head? = some '\n' then 1 else 0)) := by
  obtain ⟨hne, hnl⟩ := hr
  have hshape : rowChars r ++ z = '|' :: ((r ++ ['|']) ++ z) := by
    simp [rowChars]
  rw [hshape]
  simp only [tblRowUnit]
  have hall : ∀ x ∈ r ++ ['|'], (x ≠ '\n' : Bool) = true := by
    intro x hx
    rcases List.mem_append.mp hx with hx | hx
    · simp only [decide_eq_true_eq]
      exact fun h => hnl (h ▸ hx)
    · simp at hx
      simp [hx]
  have hline : ((r ++ ['|']) ++ z).takeWhile (· ≠ '\n') = r ++ ['|'] := by
    rw [takeWhile_append_all hall z]
    rcases hz with rfl | hz
    · simp
    · cases z with
      | nil => simp at hz
      | cons c cz =>
        simp only [List.head?_cons, Option.some.injEq] at hz
        subst hz
        simp [List.takeWhile_cons]
  rw [hline, lastPipeIdx_concat]
  have hj : 1 ≤ r.length := by
    cases r with
    | nil => exact absurd rfl hne
    | cons _ _ => simp
  dsimp only
  rw [if_pos hj]
  have hdrop : ((r ++ ['|']) ++ z).drop (r.length + 1) = z := by
    have : (r ++ ['|']).length = r.length + 1 := by simp
    rw [← this]
    exact List.drop_left _ _
  rw [hdrop]
  rcases hz with rfl | hz
  · simp
    omega
  · rw [hz]
    simp only [Option.some.injEq]
    omega

theorem rowsChars_pos (rows : List (List Char)) (hne : rows ≠ [])
    (hwf : ∀ r ∈ rows, wfRow r) : 3 ≤ (rowsChars rows).length := by
  cases rows with
  | nil => exact absurd rfl hne
  | cons r rs =>
    have hr := (hwf r (List.mem_cons_self r rs)).1
    have hrlen : 1 ≤ r.length := by
      cases r with
      | nil => exact absurd rfl hr
      | cons _ _ => simp
    cases rs with
    | nil => simp [rowsChars, rowChars]; omega
    | cons r2 rs2 =>
      rw [rowsChars_length_cons, rowChars_length]
      omega

/-- Greedy data-row consumption covers a full rendered row block (and
possibly more of what follows). -/
theorem tblRows_covers : ∀ (fuel : Nat) (rows : List (List Char)) (v : List Char),
    rows ≠ [] → (∀ r ∈ rows, wfRow r) → (v = [] ∨ v.head? = some '\n') →
    (rowsChars rows ++ v).length ≤ fuel →
    ∃ d, tblRows fuel (rowsChars rows ++ v) = some d ∧
      (rowsChars rows).length ≤ d := by
  intro fuel
  induction fuel with
  | zero =>
    intro rows v hne hwf _ hle
    exfalso
    have := rowsChars_pos rows hne hwf
    simp only [List.length_append] at hle
    omega
  | succ n ih =>
    intro rows v hne hwf hv hle
    cases rows with
    | nil => exact absurd rfl hne
    | cons r rs =>
      cases rs with
      | nil =>
        have hunit := tblRowUnit_rowChars r (hwf r (List.mem_cons_self r [])) v hv
        have hshape : rowsChars [r] ++ v = rowChars r ++ v := by simp [rowsChars]
        rw [hshape]
        simp only [tblRows, hunit]
        have hlen1 : (rowsChars [r]).length = r.length + 2 := by
          simp [rowsChars, rowChars_length]
        cases hrec : tblRows n ((rowChars r ++ v).drop
            (r.length + 2 + (if v.head? = some '\n' then 1 else 0))) with
        | none =>
          refine ⟨_, rfl, ?_⟩
          rw [hlen1]
          exact Nat.le_add_right _ _
        | some m =>
          refine ⟨_, rfl, ?_⟩
          rw [hlen1]
          exact le_trans (Nat.le_add_right _ _) (Nat.le_add_right _ _)
      | cons r2 rs2 =>
        have hz : ('\n' :: (rowsChars (r2 :: rs2) ++ v)) = [] ∨
            ('\n' :: (rowsChars (r2 :: rs2) ++ v)).head? = some '\n' := by
          right; rfl
        have hunit := tblRowUnit_rowChars r (hwf r (List.mem_cons_self r _))
          ('\n' :: (rowsChars (r2 :: rs2) ++ v)) hz
        have hshape : rowsChars (r :: r2 :: rs2) ++ v =
            rowChars r ++ ('\n' :: (rowsChars (r2 :: rs2) ++ v)) := by
          simp [rowsChars]
        rw [hshape]
        simp only [tblRows, hunit]
        simp only [List.head?_cons, if_pos rfl, if_true]
        have hdrop : (rowChars r ++ ('\n' :: (rowsChars (r2 :: rs2) ++ v))).drop
            (r.length + 2 + 1) = rowsChars (r2 :: rs2) ++ v := by
          have h1 : (rowChars r ++ ('\n' :: (rowsChars (r2 :: rs2) ++ v))) =
              (rowChars r ++ ['\n']) ++ (rowsChars (r2 :: rs2) ++ v) := by
            simp
          have h2 : (rowChars r ++ ['\n']).length = r.length + 2 + 1 := by
            simp [rowChars]
          rw [h1, ← h2]
          exact List.drop_left _ _
        rw [hdrop]
        have hlen2 : (rowsChars (r2 :: rs2) ++ v).length ≤ n := by
          have h3 := congrArg List.length hshape
          simp only [List.length_append, List.length_cons, rowChars_length] at h3 ⊢
          simp only [List.length_append] at hle
          omega
        obtain ⟨d', hd', hge⟩ := ih (r2 :: rs2) v (by simp)
          (fun x hx => hwf x (List.mem_cons_of_mem r hx)) hv hlen2
        rw [hd']
        refine ⟨_, rfl, ?_⟩
        rw [rowsChars_length_cons, rowChars_length]
        omega

/-- `takeWhile` ignores everything after a failing element. -/
theorem takeWhile_append_stop {p : Char → Bool} {a : List Char}
    (ha : ∃ c ∈ a, p c = false) (b : List Char) :
    (a ++ b).takeWhile p = a.takeWhile p := by
  induction a with
  | nil =>
    obtain ⟨c, hc, _⟩ := ha
    simp at hc
  | cons c cs ih =>
    by_cases hp : p c = true
    · simp only [List.cons_append, List.takeWhile_cons, hp, if_true]
      obtain ⟨x, hx, hxf⟩ := ha
      rcases List.mem_cons.mp hx with rfl | hx
      · rw [hp] at hxf
        cases hxf
      · rw [ih ⟨x, hx, hxf⟩]
    · have hp' : p c = false := by simpa using hp
      simp [List.takeWhile_cons, hp']

/-- A failing element makes `takeWhile` a strict prefix. -/
theorem length_takeWhile_lt {p : Char → Bool} {a : List Char}
    (ha : ∃ c ∈ a, p c = false) : (a.takeWhile p).length < a.length := by
  induction a with
  | nil =>
    obtain ⟨c, hc, _⟩ := ha
    simp at hc
  | cons c cs ih =>
    by_cases hp : p c = true
    · simp only [List.takeWhile_cons, hp, if_true, List.length_cons]
      obtain ⟨x, hx, hxf⟩ := ha
      rcases List.mem_cons.mp hx with rfl | hx
      · rw [hp] at hxf
        cases hxf
      · exact Nat.succ_lt_succ (ih ⟨x, hx, hxf⟩)
    · have hp' : p c = false := by simpa using hp
      rw [List.takeWhile_cons, if_neg (by simp [hp'])]
      simp

/-- The backtracking search returns the unique surviving try. -/
theorem tblSepSearch_exact (u : List Char) (m0 d : Nat)
    (h0 : tblSepTry u m0 = some d) (h1 : 1 ≤ m0) :
    ∀ K, m0 ≤ K → (∀ m', m0 < m' → m' ≤ K → tblSepTry u m' = none) →
    tblSepSearch u K = some (m0, d) := by
  intro K
  induction K with
  | zero =>
    intro hK _
    omega
  | succ k ih =>
    by_cases he : m0 = k + 1
    · intro _ _
      subst he
      simp only [tblSepSearch, h0]
    · intro hK hnone
      have hlt : m0 ≤ k := by omega
      have hn : tblSepTry u (k + 1) = none := hnone (k + 1) (by omega) (le_refl _)
      simp only [tblSepSearch, hn]
      exact ih hlt fun m' h h' => hnone m' h (by omega)

/-- A rendered row list starts with its first rendered line. -/
theorem rowsChars_cons_decomp (r : List Char) (rs : List (List Char)) :
    ∃ t, rowsChars (r :: rs) = rowChars r ++ t := by
  cases rs with
  | nil => exact ⟨[], by simp [rowsChars]⟩
  | cons r2 rs2 => exact ⟨'\n' :: rowsChars (r2 :: rs2), rfl⟩

/-- A rendered line of a well-formed row holds no newline. -/
theorem newline_not_mem_rowChars {r : List Char} (hr : wfRow r) :
    '\n' ∉ rowChars r := by
  obtain ⟨_, hnl⟩ := hr
  intro h
  rw [rowChars] at h
  rcases List.mem_cons.mp h with h | h
  · exact absurd h (by decide)
  · rcases List.mem_append.mp h with h | h
    · exact hnl h
    · rw [List.mem_singleton] at h
      exact absurd h (by decide)

/-- Any separator-class length reaching into the first data row fails:
the required newline position lands inside the newline-free rendered
first row. -/
theorem sepTry_fail_in_r0 (sp : List Char) (r₀ : List Char)
    (rest : List (List Char)) (v : List Char) (hr : wfRow r₀) (m' : Nat)
    (h1 : sp.length < m') (h2 : m' ≤ sp.length + r₀.length + 2) :
    tblSepTry (sp ++ '|' :: '\n' :: (rowsChars (r₀ :: rest) ++ v)) m' = none := by
  obtain ⟨t, ht⟩ := rowsChars_cons_decomp r₀ rest
  have hshape : sp ++ '|' :: '\n' :: (rowsChars (r₀ :: rest) ++ v) =
      (sp ++ ['|', '\n']) ++ (rowChars r₀ ++ (t ++ v)) := by
    rw [ht]
    simp
  have hlen1 : (sp ++ ['|', '\n']).length = sp.length + 2 := by simp
  have hget : (sp ++ '|' :: '\n' :: (rowsChars (r₀ :: rest) ++ v)).get? (m' + 1) =
      (rowChars r₀ ++ (t ++ v)).get? (m' + 1 - (sp.length + 2)) := by
    rw [hshape, List.get?_eq_getElem?, List.get?_eq_getElem?,
      List.getElem?_append_right (by rw [hlen1]; omega)]
    rw [hlen1]
  have hget2 : (rowChars r₀ ++ (t ++ v)).get? (m' + 1 - (sp.length + 2)) =
      (rowChars r₀).get? (m' + 1 - (sp.length + 2)) := by
    rw [List.get?_eq_getElem?, List.get?_eq_getElem?, List.getElem?_append_left]
    rw [rowChars_length]
    omega
  have hnl2 : ¬ ((sp ++ '|' :: '\n' :: (rowsChars (r₀ :: rest) ++ v)).get? (m' + 1) =
      some '\n') := by
    rw [hget, hget2]
    intro hcon
    rw [List.get?_eq_getElem?] at hcon
    exact newline_not_mem_rowChars hr (List.getElem?_mem hcon)
  simp only [tblSepTry]
  rw [if_neg]
  intro hcond
  rw [Bool.and_eq_true] at hcond
  exact hnl2 (by simpa using hcond.2)

/-- The separator-class run on the text after the header stops inside
the first data row: `sp`, the closing `'|'`, the newline and the data
row's opening `'|'` are all in the class, and the row's non-class
character ends it. -/
theorem sepRun_eq (sp : List Char) (hspcls : ∀ c ∈ sp, isSepCls c = true)
    (r₀ : List Char) (rest : List (List Char)) (v : List Char)
    (hns : hasNonSep r₀) :
    ((sp ++ '|' :: '\n' :: (rowsChars (r₀ :: rest) ++ v)).takeWhile isSepCls).length =
      sp.length + 3 + (r₀.takeWhile isSepCls).length := by
  obtain ⟨t, ht⟩ := rowsChars_cons_decomp r₀ rest
  have hshape : sp ++ '|' :: '\n' :: (rowsChars (r₀ :: rest) ++ v) =
      sp ++ '|' :: '\n' :: '|' :: (r₀ ++ (['|'] ++ (t ++ v))) := by
    rw [ht]
    simp [rowChars]
  rw [hshape, takeWhile_append_all hspcls]
  have hstop : (r₀ ++ '|' :: (t ++ v)).takeWhile isSepCls = r₀.takeWhile isSepCls := by
    obtain ⟨c, hc, hcf⟩ := hns
    exact takeWhile_append_stop ⟨c, hc, hcf⟩ _
  simp only [List.takeWhile_cons]
  norm_num [isSepCls, pyIsSpace]
  rw [hstop]
  omega

/-- After the header, the backtracking separator search lands exactly
at the separator interior's length and the data-row scan covers the
rendered data rows. -/
theorem sepSearch_T (sp : List Char) (hsp : sp ≠ [])
    (hspc : ∀ c ∈ sp, c = ' ' ∨ c = '-' ∨ c = ':' ∨ c = '|')
    (r₀ : List Char) (rest : List (List Char)) (v : List Char)
    (hwf : ∀ r ∈ r₀ :: rest, wfRow r) (hns : hasNonSep r₀)
    (hv : v = [] ∨ v.head? = some '\n') :
    ∃ d, tblSepSearch (sp ++ '|' :: '\n' :: (rowsChars (r₀ :: rest) ++ v))
        (((sp ++ '|' :: '\n' :: (rowsChars (r₀ :: rest) ++ v)).takeWhile
          isSepCls).length) = some (sp.length, d) ∧
      (rowsChars (r₀ :: rest)).length ≤ d := by
  have hspcls : ∀ c ∈ sp, isSepCls c = true := by
    intro c hc
    rcases hspc c hc with rfl | rfl | rfl | rfl <;> decide
  have hdrop : (sp ++ '|' :: '\n' :: (rowsChars (r₀ :: rest) ++ v)).drop
      (sp.length + 2) = rowsChars (r₀ :: rest) ++ v := by
    have h1 : sp ++ '|' :: '\n' :: (rowsChars (r₀ :: rest) ++ v) =
        (sp ++ ['|', '\n']) ++ (rowsChars (r₀ :: rest) ++ v) := by simp
    have h2 : (sp ++ ['|', '\n']).length = sp.length + 2 := by simp
    rw [h1, ← h2]
    exact List.drop_left _ _
  have hpipe : (sp ++ '|' :: '\n' :: (rowsChars (r₀ :: rest) ++ v)).get?
      sp.length = some '|' := by
    rw [List.get?_eq_getElem?, List.getElem?_append_right (le_refl _)]
    simp
  have hnlq : (sp ++ '|' :: '\n' :: (rowsChars (r₀ :: rest) ++ v)).get?
      (sp.length + 1) = some '\n' := by
    rw [List.get?_eq_getElem?, List.getElem?_append_right (by omega)]
    simp
  obtain ⟨d, hd, hdge⟩ := tblRows_covers (rowsChars (r₀ :: rest) ++ v).length
    (r₀ :: rest) v (by simp) hwf hv (le_refl _)
  have htry : tblSepTry (sp ++ '|' :: '\n' :: (rowsChars (r₀ :: rest) ++ v))
      sp.length = some d := by
    simp only [tblSepTry]
    rw [if_pos]
    · rw [hdrop, hd]
    · rw [Bool.and_eq_true]
      constructor
      · simp only [decide_eq_true_eq]
        exact hpipe
      · simp only [decide_eq_true_eq]
        exact hnlq
  have hrun := sepRun_eq sp hspcls r₀ rest v hns
  have hwlt : (r₀.takeWhile isSepCls).length < r₀.length := by
    obtain ⟨c, hc, hcf⟩ := hns
    exact length_takeWhile_lt ⟨c, hc, hcf⟩
  have hr₀ := hwf r₀ (List.mem_cons_self r₀ rest)
  have hsp1 : 1 ≤ sp.length := by
    cases sp with
    | nil => exact absurd rfl hsp
    | cons _ _ => simp
  refine ⟨d, ?_, hdge⟩
  rw [hrun]
  exact tblSepSearch_exact _ sp.length d htry hsp1 _ (by omega)
    (fun m' h h' => sepTry_fail_in_r0 sp r₀ rest v hr₀ m' h (by omega))

/-- The full table pattern matches at a pipe-opened, newline-free
header line followed by a rendered separator row and data rows; the
match extends at least through the rendered data rows. -/
theorem matchTableAt_T_shift (y : List Char) (hy : '\n' ∉ y) (hyne : y ≠ [])
    (sp : List Char) (hsp : sp ≠ [])
    (hspc : ∀ c ∈ sp, c = ' ' ∨ c = '-' ∨ c = ':' ∨ c = '|')
    (rows : List (List Char)) (hrows : rows ≠ [])
    (hwf : ∀ r ∈ rows, wfRow r ∧ hasNonSep r) (v : List Char)
    (hv : v = [] ∨ v.head? = some '\n') :
    ∃ n, matchTableAt ('|' :: (y ++ '|' :: '\n' :: (rowsChars (sp :: rows) ++ v))) =
      some n ∧ y.length + 6 + sp.length + (rowsChars rows).length ≤ n := by
  cases rows with
  | nil => exact absurd rfl hrows
  | cons r₀ rest =>
    have hyall : ∀ x ∈ y, (x ≠ '\n' : Bool) = true := by
      intro x hx
      simp only [decide_eq_true_eq]
      exact fun h => hy (h ▸ hx)
    have hy1 : 1 ≤ y.length := by
      cases y with
      | nil => exact absurd rfl hyne
      | cons _ _ => simp
    have hlineeq : (y ++ '|' :: '\n' :: (rowsChars (sp :: r₀ :: rest) ++ v)).takeWhile
        (· ≠ '\n') = y ++ ['|'] := by
      rw [takeWhile_append_all hyall]
      simp [List.takeWhile_cons]
    have hheader : tblHeader ('|' :: (y ++ '|' :: '\n' ::
        (rowsChars (sp :: r₀ :: rest) ++ v))) = some (y.length + 3) := by
      simp only [tblHeader, hlineeq]
      rw [if_pos]
      · simp only [Option.some.injEq, List.length_append, List.length_cons,
          List.length_nil]
        omega
      · simp only [Bool.and_eq_true, decide_eq_true_eq]
        refine ⟨⟨?_, ?_⟩, List.getLast?_concat _⟩
        · simp only [List.length_append, List.length_cons, List.length_nil]
          omega
        · simp only [List.length_append, List.length_cons, List.length_nil]
          omega
    have hdropl : ('|' :: (y ++ '|' :: '\n' :: (rowsChars (sp :: r₀ :: rest) ++ v))).drop
        (y.length + 3) = '|' :: (sp ++ '|' :: '\n' :: (rowsChars (r₀ :: rest) ++ v)) := by
      have h1 : '|' :: (y ++ '|' :: '\n' :: (rowsChars (sp :: r₀ :: rest) ++ v)) =
          ('|' :: y ++ ['|', '\n']) ++ (rowsChars (sp :: r₀ :: rest) ++ v) := by simp
      have h2 : ('|' :: y ++ ['|', '\n']).length = y.length + 3 := by simp
      rw [h1, ← h2, List.drop_left]
      show rowsChars (sp :: r₀ :: rest) ++ v = _
      simp [rowsChars, rowChars]
    obtain ⟨d, hsearch, hdge⟩ := sepSearch_T sp hsp hspc r₀ rest v
      (fun r hr => (hwf r hr).1) (hwf r₀ (List.mem_cons_self r₀ rest)).2 hv
    refine ⟨y.length + 3 + 1 + sp.length + 2 + d, ?_, by omega⟩
    simp only [matchTableAt, hheader, hdropl, hsearch]

/-- An element returned by `getLast?` is in the list. -/
theorem mem_of_getLast' {α : Type} {l : List α} {a : α} (h : l.getLast? = some a) :
    a ∈ l := by
  cases l with
  | nil => cases h
  | cons x xs =>
    rw [List.getLast?_eq_getLast (x :: xs) (by simp), Option.some.injEq] at h
    rw [← h]
    exact List.getLast_mem _

/-- `takeWhile` never exceeds the list. -/
theorem length_takeWhile_le' {α : Type} (p : α → Bool) (l : List α) :
    (l.takeWhile p).length ≤ l.length := by
  induction l with
  | nil => simp
  | cons c cs ih =>
    rw [List.takeWhile_cons]
    by_cases hp : p c = true
    · rw [if_pos hp]
      simpa using ih
    · rw [if_neg (by simp [hp])]
      simp

/-- The reported last-pipe index is a valid index of the line. -/
theorem lastPipeIdx_lt {line : List Char} {j : Nat} (h : lastPipeIdx line = some j) :
    j < line.length := by
  unfold lastPipeIdx at h
  rcases hgl : (line.enum.filter fun p => p.2 = '|').getLast? with _ | p
  · rw [hgl] at h
    exact Option.noConfusion h
  · rw [hgl] at h
    simp only [Option.map_some', Option.some.injEq] at h
    have hp : p ∈ line.enum.filter fun p => p.2 = '|' := mem_of_getLast' hgl
    have hp2 : p ∈ line.enum := List.mem_of_mem_filter hp
    have h3 : p.1 ∈ line.enum.map Prod.fst := List.mem_map_of_mem Prod.fst hp2
    rw [List.enum_map_fst] at h3
    rw [← h]
    exact List.mem_range.mp h3

/-- Inversion of one data-row unit. -/
theorem tblRowUnit_inv {l : List Char} {nu : Nat} (h : tblRowUnit l = some nu) :
    ∃ t j, l = '|' :: t ∧ lastPipeIdx (t.takeWhile (· ≠ '\n')) = some j ∧ 1 ≤ j ∧
      nu = 1 + (j + 1) + (if (t.drop (j + 1)).head? = some '\n' then 1 else 0) := by
  cases l with
  | nil => exact Option.noConfusion h
  | cons c t =>
    by_cases hc : c = '|'
    · subst hc
      simp only [tblRowUnit] at h
      rcases hlp : lastPipeIdx (t.takeWhile (· ≠ '\n')) with _ | j
      · rw [hlp] at h
        exact Option.noConfusion h
      · rw [hlp] at h
        dsimp only at h
        by_cases hj : 1 ≤ j
        · rw [if_pos hj] at h
          simp only [Option.some.injEq] at h
          exact ⟨t, j, rfl, hlp, hj, h.symm⟩
        · rw [if_neg hj] at h
          exact Option.noConfusion h
    · exfalso
      have hnone : tblRowUnit (c :: t) = none := by
        simp only [tblRowUnit]
        split
        · next t' heq =>
          injection heq with h1 _
          exact absurd h1 hc
        · rfl
      rw [hnone] at h
      exact Option.noConfusion h

/-- Inversion of a separator try. -/
theorem tblSepTry_inv {u : List Char} {m d : Nat} (h : tblSepTry u m = some d) :
    u.get? m = some '|' ∧ u.get? (m + 1) = some '\n' ∧
    tblRows (u.drop (m + 2)).length (u.drop (m + 2)) = some d := by
  simp only [tblSepTry] at h
  by_cases hc : (u.get? m = some '|' && u.get? (m + 1) = some '\n') = true
  · rw [if_pos hc] at h
    rw [Bool.and_eq_true] at hc
    exact ⟨by simpa using hc.1, by simpa using hc.2, h⟩
  · rw [if_neg hc] at h
    exact Option.noConfusion h

/-- Inversion of the backtracking separator search. -/
theorem tblSepSearch_inv {u : List Char} : ∀ {K m d : Nat},
    tblSepSearch u K = some (m, d) → tblSepTry u m = some d ∧ 1 ≤ m ∧ m ≤ K := by
  intro K
  induction K with
  | zero =>
    intro m d h
    exact Option.noConfusion h
  | succ k ih =>
    intro m d h
    simp only [tblSepSearch] at h
    rcases htry : tblSepTry u (k + 1) with _ | d'
    · rw [htry] at h
      obtain ⟨h1, h2, h3⟩ := ih h
      exact ⟨h1, h2, by omega⟩
    · rw [htry] at h
      dsimp only at h
      simp only [Option.some.injEq, Prod.mk.injEq] at h
      obtain ⟨hm, hd⟩ := h
      subst hm
      subst hd
      exact ⟨htry, by omega, le_refl _⟩

/-- Inversion of one whole-pattern attempt. -/
theorem matchTableAt_inv {s : List Char} {n : Nat} (hm : matchTableAt s = some n) :
    ∃ h u m d, tblHeader s = some h ∧ s.drop h = '|' :: u ∧
      tblSepSearch u ((u.takeWhile isSepCls).length) = some (m, d) ∧
      n = h + 1 + m + 2 + d := by
  rcases hh : tblHeader s with _ | h
  · unfold matchTableAt at hm
    rw [hh] at hm
    exact Option.noConfusion hm
  · unfold matchTableAt at hm
    rw [hh] at hm
    dsimp only at hm
    rcases hd2 : s.drop h with _ | ⟨c, u⟩
    · rw [hd2] at hm
      exact Option.noConfusion hm
    · rw [hd2] at hm
      split at hm
      · next u' heq =>
        injection heq with h1 h2
        subst h1
        subst h2
        rcases hs : tblSepSearch u ((u.takeWhile isSepCls).length) with _ | ⟨m, d⟩
        · rw [hs] at hm
          exact Option.noConfusion hm
        · rw [hs] at hm
          dsimp only at hm
          simp only [Option.some.injEq] at hm
          exact ⟨h, u, m, d, rfl, hd2, hs, hm.symm⟩
      · exact Option.noConfusion hm

/-- Inversion of the header pattern. -/
theorem tblHeader_inv {l : List Char} {h : Nat} (hh : tblHeader l = some h) :
    ∃ t, l = '|' :: t ∧ h = 1 + (t.takeWhile (· ≠ '\n')).length + 1 ∧
      (t.takeWhile (· ≠ '\n')).length < t.length := by
  cases l with
  | nil => exact Option.noConfusion hh
  | cons c t =>
    simp only [tblHeader] at hh
    split at hh
    · next t' heq =>
      injection heq with h1 h2
      subst h1
      subst h2
      split at hh
      · next hcond =>
        rw [Bool.and_eq_true, Bool.and_eq_true] at hcond
        simp only [Option.some.injEq] at hh
        exact ⟨t, rfl, hh.symm, by simpa using hcond.1.1⟩
      · exact Option.noConfusion hh
    · exact Option.noConfusion hh

/-- A data-row scan never consumes more than the list. -/
theorem tblRows_le : ∀ (fuel : Nat) (l : List Char) (D : Nat),
    tblRows fuel l = some D → D ≤ l.length := by
  intro fuel
  induction fuel with
  | zero =>
    intro l D h
    exact Option.noConfusion h
  | succ k ih =>
    intro l D h
    simp only [tblRows] at h
    rcases hu : tblRowUnit l with _ | nu
    · rw [hu] at h
      exact Option.noConfusion h
    · rw [hu] at h
      dsimp only at h
      obtain ⟨t, j, hl, hlp, hj1, hnu⟩ := tblRowUnit_inv hu
      have hjlt : j < (t.takeWhile (· ≠ '\n')).length := lastPipeIdx_lt hlp
      have htw : (t.takeWhile (· ≠ '\n')).length ≤ t.length := length_takeWhile_le' _ _
      have hnule : nu ≤ l.length := by
        subst hl
        simp only [List.length_cons]
        by_cases hb : (t.drop (j + 1)).head? = some '\n'
        · rw [if_pos hb] at hnu
          have hne : t.drop (j + 1) ≠ [] := by
            intro hcon
            rw [hcon] at hb
            exact Option.noConfusion hb
          have hlt : j + 1 < t.length := by
            by_contra hge
            push_neg at hge
            have h0 : (t.drop (j + 1)).length = 0 := by
              rw [List.length_drop]
              omega
            exact hne (List.length_eq_zero.mp h0)
          omega
        · rw [if_neg hb] at hnu
          omega
      rcases hr : tblRows k (l.drop nu) with _ | m
      · rw [hr] at h
        dsimp only at h
        simp only [Option.some.injEq] at h
        omega
      · rw [hr] at h
        dsimp only at h
        simp only [Option.some.injEq] at h
        have hrec := ih (l.drop nu) m hr
        rw [List.length_drop] at hrec
        omega

/-- A whole-pattern match never consumes more than the list. -/
theorem matchTableAt_le {s : List Char} {n : Nat} (hm : matchTableAt s = some n) :
    n ≤ s.length := by
  obtain ⟨h, u, m, d, hh, hdrop, hsearch, hn⟩ := matchTableAt_inv hm
  obtain ⟨htry, hm1, hmK⟩ := tblSepSearch_inv hsearch
  obtain ⟨hpipe, hnl, hrows⟩ := tblSepTry_inv htry
  have hd1 : s.length - h = u.length + 1 := by
    have hlen := congrArg List.length hdrop
    rw [List.length_drop] at hlen
    simpa using hlen
  have hm2 : m + 1 < u.length := by
    by_contra hge
    push_neg at hge
    rw [List.get?_eq_getElem?, List.getElem?_eq_none hge] at hnl
    exact Option.noConfusion hnl
  have hdle : d ≤ u.length - (m + 2) := by
    have hb := tblRows_le _ _ _ hrows
    rw [List.length_drop] at hb
    exact hb
  omega

/-- All three line groups of a well-formed table are usable lines. -/
theorem wf_lines (T : WfTable) (hwf : T.Wf) :
    ∀ r ∈ T.hd :: T.sp :: T.rows, wfRow r := by
  obtain ⟨hhd, _, hsp, hspc, _, hrows⟩ := hwf
  intro r hr
  rcases List.mem_cons.mp hr with rfl | hr
  · exact hhd
  · rcases List.mem_cons.mp hr with rfl | hr
    · refine ⟨hsp, fun hmem => ?_⟩
      rcases hspc _ hmem with h | h | h | h <;> exact absurd h (by decide)
    · exact (hrows r hr).1

/-- A newline inside a rendered block of usable lines sits exactly at
a line joint: the block splits as `rows₁ ++ '\n' :: rows₂`. -/
theorem rowsChars_newline_split : ∀ (ls : List (List Char)), (∀ r ∈ ls, wfRow r) →
    ∀ q : Nat, (rowsChars ls).get? q = some '\n' →
    ∃ ls₁ ls₂, ls₁ ≠ [] ∧ ls₂ ≠ [] ∧ (∀ r ∈ ls₂, wfRow r) ∧
      rowsChars ls = rowsChars ls₁ ++ '\n' :: rowsChars ls₂ ∧
      q = (rowsChars ls₁).length := by
  intro ls
  induction ls with
  | nil =>
    intro _ q hq
    simp [rowsChars] at hq
  | cons r rest ih =>
    intro hwf q hq
    cases rest with
    | nil =>
      exfalso
      have hmem : '\n' ∈ rowChars r := by
        rw [show rowsChars [r] = rowChars r from rfl, List.get?_eq_getElem?] at hq
        exact List.getElem?_mem hq
      exact newline_not_mem_rowChars (hwf r (List.mem_cons_self r _)) hmem
    | cons r2 rs =>
      have hsh : rowsChars (r :: r2 :: rs) = rowChars r ++ '\n' :: rowsChars (r2 :: rs) := rfl
      rw [hsh, List.get?_eq_getElem?] at hq
      by_cases hlt : q < (rowChars r).length
      · exfalso
        rw [List.getElem?_append_left hlt] at hq
        exact newline_not_mem_rowChars (hwf r (List.mem_cons_self r _))
          (List.getElem?_mem hq)
      · push_neg at hlt
        rw [List.getElem?_append_right hlt] at hq
        by_cases hq0 : q - (rowChars r).length = 0
        · refine ⟨[r], r2 :: rs, by simp, by simp,
            fun x hx => hwf x (List.mem_cons_of_mem r hx), hsh, ?_⟩
          show q = (rowChars r).length
          omega
        · obtain ⟨q', hq'eq⟩ : ∃ q', q - (rowChars r).length = q' + 1 :=
            ⟨q - (rowChars r).length - 1, by omega⟩
          rw [hq'eq] at hq
          simp only [List.getElem?_cons_succ] at hq
          rw [← List.get?_eq_getElem?] at hq
          obtain ⟨ls₁, ls₂, h1ne, h2ne, h2wf, heq, hlen⟩ :=
            ih (fun x hx => hwf x (List.mem_cons_of_mem r hx)) q' hq
          cases ls₁ with
          | nil => exact absurd rfl h1ne
          | cons a b =>
            refine ⟨r :: a :: b, ls₂, by simp, h2ne, h2wf, ?_, ?_⟩
            · rw [hsh, heq,
                show rowsChars (r :: a :: b) = rowChars r ++ '\n' :: rowsChars (a :: b)
                  from rfl]
              simp
            · rw [rowsChars_length_cons]
              omega

/-- A data-row scan that starts before a rendered well-formed table
either stays inside the prefix or swallows the whole table: each unit
consumes one line, every table line is a valid data row, and the
greedy scan cannot stop between them. -/
theorem tblRows_boundary : ∀ (fuel : Nat) (x : List Char) (T : WfTable), T.Wf →
    ∀ (v : List Char), (v = [] ∨ v.head? = some '\n') → ∀ D : Nat,
    tblRows fuel (x ++ (T.chars ++ v)) = some D →
    (x ++ (T.chars ++ v)).length ≤ fuel →
    D ≤ x.length ∨ x.length + T.chars.length ≤ D := by
  intro fuel
  induction fuel with
  | zero =>
    intro x T hwf v hv D hD hle
    exact Option.noConfusion hD
  | succ k ih =>
    intro x T hwf v hv D hD hle
    cases x with
    | nil =>
      right
      have hfuel : (rowsChars (T.hd :: T.sp :: T.rows) ++ v).length ≤ k + 1 := by
        have h0 : ([] ++ (T.chars ++ v)).length ≤ k + 1 := hle
        simpa [WfTable.chars] using h0
      obtain ⟨d', hd', hge⟩ := tblRows_covers (k + 1) (T.hd :: T.sp :: T.rows) v
        (by simp) (wf_lines T hwf) hv hfuel
      have hsame : tblRows (k + 1) (rowsChars (T.hd :: T.sp :: T.rows) ++ v) =
          some D := by
        simpa [WfTable.chars] using hD
      rw [hsame] at hd'
      injection hd' with hDd
      show [].length + (rowsChars (T.hd :: T.sp :: T.rows)).length ≤ D
      simp only [List.length_nil]
      omega
    | cons c xt =>
      simp only [tblRows] at hD
      rcases hu : tblRowUnit ((c :: xt) ++ (T.chars ++ v)) with _ | nu
      · rw [hu] at hD
        exact Option.noConfusion hD
      · rw [hu] at hD
        dsimp only at hD
        obtain ⟨t, j, hl, hlp, hj1, hnu⟩ := tblRowUnit_inv hu
        rw [List.cons_append] at hl
        injection hl with hc ht
        subst hc
        subst ht
        have hnu1 : 1 ≤ nu := by
          by_cases hb : ((xt ++ (T.chars ++ v)).drop (j + 1)).head? = some '\n'
          · rw [if_pos hb] at hnu
            omega
          · rw [if_neg hb] at hnu
            omega
        by_cases hx : '\n' ∈ xt
        · -- the unit stays inside the prefix; recurse on the rest
          have hstop : (xt ++ (T.chars ++ v)).takeWhile (· ≠ '\n') =
              xt.takeWhile (· ≠ '\n') :=
            takeWhile_append_stop ⟨'\n', hx, by simp⟩ _
          have hlt : (xt.takeWhile (· ≠ '\n')).length < xt.length :=
            length_takeWhile_lt ⟨'\n', hx, by simp⟩
          have hjlt : j < (xt.takeWhile (· ≠ '\n')).length := by
            have hj2 := lastPipeIdx_lt hlp
            rw [hstop] at hj2
            exact hj2
          have hnule : nu ≤ xt.length + 1 := by
            by_cases hb : ((xt ++ (T.chars ++ v)).drop (j + 1)).head? = some '\n'
            · rw [if_pos hb] at hnu
              omega
            · rw [if_neg hb] at hnu
              omega
          have hdropnu : (('|' :: xt) ++ (T.chars ++ v)).drop nu =
              (('|' :: xt).drop nu) ++ (T.chars ++ v) :=
            List.drop_append_of_le_length (by simp; omega)
          rcases hr : tblRows k ((('|' :: xt) ++ (T.chars ++ v)).drop nu) with _ | m
          · rw [hr] at hD
            dsimp only at hD
            simp only [Option.some.injEq] at hD
            left
            simp only [List.length_cons]
            omega
          · rw [hr] at hD
            dsimp only at hD
            simp only [Option.some.injEq] at hD
            have hr' : tblRows k ((('|' :: xt).drop nu) ++ (T.chars ++ v)) = some m := by
              rw [← hdropnu]
              exact hr
            have hlen' : ((('|' :: xt).drop nu) ++ (T.chars ++ v)).length ≤ k := by
              rw [← hdropnu, List.length_drop]
              simp only [List.length_append, List.length_cons] at hle ⊢
              omega
            have hxlen : (('|' :: xt).drop nu).length = ('|' :: xt).length - nu :=
              List.length_drop ..
            rcases ih (('|' :: xt).drop nu) T hwf v hv m hr' hlen' with hm | hm
            · left
              simp only [List.length_cons] at hxlen ⊢
              omega
            · right
              simp only [List.length_cons] at hxlen ⊢
              omega
        · -- no newline before the table: the unit consumes the whole
          -- straddling header line and lands on the separator row
          right
          have hTshape : T.chars ++ v =
              ('|' :: T.hd ++ ['|']) ++ '\n' :: (rowsChars (T.sp :: T.rows) ++ v) := by
            show rowsChars (T.hd :: T.sp :: T.rows) ++ v = _
            simp [rowsChars, rowChars]
          have hshape3 : xt ++ (T.chars ++ v) =
              ((xt ++ '|' :: T.hd) ++ ['|']) ++
                ('\n' :: (rowsChars (T.sp :: T.rows) ++ v)) := by
            rw [hTshape]
            simp
          have hall : ∀ ch ∈ (xt ++ '|' :: T.hd) ++ ['|'], (ch ≠ '\n' : Bool) = true := by
            intro ch hch
            simp only [decide_eq_true_eq]
            intro hceq
            subst hceq
            simp only [List.mem_append, List.mem_cons, List.mem_singleton] at hch
            rcases hch with (hch | hch | hch) | hch
            · exact hx hch
            · exact absurd hch (by decide)
            · exact hwf.1.2 hch
            · exact absurd hch (by decide)
          have hlineeq : (xt ++ (T.chars ++ v)).takeWhile (· ≠ '\n') =
              (xt ++ '|' :: T.hd) ++ ['|'] := by
            rw [hshape3, takeWhile_append_all hall]
            simp [List.takeWhile_cons]
          have hj : j = xt.length + T.hd.length + 1 := by
            rw [hlineeq,
              show (xt ++ '|' :: T.hd) ++ ['|'] = (xt ++ '|' :: T.hd) ++ ['|'] from rfl,
              lastPipeIdx_concat] at hlp
            simp only [Option.some.injEq, List.length_append, List.length_cons] at hlp
            omega
          have hpre : ((xt ++ '|' :: T.hd) ++ ['|']).length = j + 1 := by
            simp only [List.length_append, List.length_cons, List.length_nil]
            omega
          have hbonus : ((xt ++ (T.chars ++ v)).drop (j + 1)).head? = some '\n' := by
            rw [hshape3, ← hpre, List.drop_left]
            rfl
          rw [if_pos hbonus] at hnu
          have hshape4 : ('|' :: xt) ++ (T.chars ++ v) =
              ('|' :: ((xt ++ '|' :: T.hd) ++ ['|']) ++ ['\n']) ++
                (rowsChars (T.sp :: T.rows) ++ v) := by
            rw [List.cons_append, hshape3]
            simp
          have hpre2 : ('|' :: ((xt ++ '|' :: T.hd) ++ ['|']) ++ ['\n']).length = nu := by
            simp only [List.length_append, List.length_cons, List.length_nil]
            omega
          have hdropnu : (('|' :: xt) ++ (T.chars ++ v)).drop nu =
              rowsChars (T.sp :: T.rows) ++ v := by
            rw [hshape4, ← hpre2, List.drop_left]
          have hfuel2 : (rowsChars (T.sp :: T.rows) ++ v).length ≤ k := by
            have hcong := congrArg List.length hdropnu
            rw [List.length_drop] at hcong
            omega
          obtain ⟨d', hd', hge⟩ := tblRows_covers k (T.sp :: T.rows) v (by simp)
            (fun r hr => wf_lines T hwf r (List.mem_cons_of_mem _ hr)) hv hfuel2
          rw [hdropnu, hd'] at hD
          dsimp only at hD
          simp only [Option.some.injEq] at hD
          have hTlen : T.chars.length = T.hd.length + 3 + (rowsChars (T.sp :: T.rows)).length := by
            show (rowsChars (T.hd :: T.sp :: T.rows)).length = _
            rw [rowsChars_length_cons, rowChars_length]
          simp only [List.length_cons]
          omega

/-- The whole pattern matches at the start of a rendered well-formed
table and covers at least the table. -/
theorem matchTableAt_start (T : WfTable) (hwf : T.Wf) (v : List Char)
    (hv : v = [] ∨ v.head? = some '\n') :
    ∃ n, matchTableAt (T.chars ++ v) = some n ∧ T.chars.length ≤ n := by
  obtain ⟨⟨hne, hnl⟩, hns, hsp, hspc, hrows, hwfr⟩ := hwf
  have hshape : T.chars ++ v =
      '|' :: (T.hd ++ '|' :: '\n' :: (rowsChars (T.sp :: T.rows) ++ v)) := by
    show rowsChars (T.hd :: T.sp :: T.rows) ++ v = _
    rcases hT : T.rows with _ | ⟨r, rs⟩
    · exact absurd hT hrows
    · simp [rowsChars, rowChars]
  obtain ⟨n, hn, hge⟩ := matchTableAt_T_shift T.hd hnl hne T.sp hsp hspc
    T.rows hrows hwfr v hv
  refine ⟨n, by rw [hshape]; exact hn, ?_⟩
  rcases hT : T.rows with _ | ⟨r, rs⟩
  · exact absurd hT hrows
  · have hlen : T.chars.length =
        T.hd.length + 6 + T.sp.length + (rowsChars T.rows).length := by
      show (rowsChars (T.hd :: T.sp :: T.rows)).length = _
      rw [hT, rowsChars_length_cons, rowsChars_length_cons, rowChars_length,
        rowChars_length]
      omega
    omega

/-- No whole-pattern match can end strictly inside a rendered
well-formed table: a match either stops before it or covers it. -/
theorem matchTableAt_no_cross (w : List Char) (T : WfTable) (hwf : T.Wf)
    (v : List Char) (hv : v = [] ∨ v.head? = some '\n') (n : Nat)
    (hm : matchTableAt (w ++ (T.chars ++ v)) = some n) :
    n ≤ w.length ∨ w.length + T.chars.length ≤ n := by
  obtain ⟨h, u, m, d, hh, hdrop, hsearch, hn⟩ := matchTableAt_inv hm
  obtain ⟨htry, hm1, hmK⟩ := tblSepSearch_inv hsearch
  obtain ⟨hpipe, hnl, hrows⟩ := tblSepTry_inv htry
  have hu : (w ++ (T.chars ++ v)).drop (h + 1) = u := by
    have hcong := congrArg (List.drop 1) hdrop
    simp only [List.drop_drop] at hcong
    simpa [Nat.add_comm] using hcong
  have hud : u.drop (m + 2) = (w ++ (T.chars ++ v)).drop (h + 1 + (m + 2)) := by
    rw [← hu, List.drop_drop]
  by_cases hcase : h + 1 + m + 2 ≤ w.length
  · -- the data scan starts inside the prefix (or at its right edge)
    have hx : (w ++ (T.chars ++ v)).drop (h + 1 + (m + 2)) =
        (w.drop (h + 1 + (m + 2))) ++ (T.chars ++ v) :=
      List.drop_append_of_le_length (by omega)
    rw [hud, hx] at hrows
    have hxlen : (w.drop (h + 1 + (m + 2))).length = w.length - (h + 1 + (m + 2)) :=
      List.length_drop ..
    rcases tblRows_boundary _ (w.drop (h + 1 + (m + 2))) T hwf v hv d hrows
      (le_refl _) with hD | hD
    · left
      omega
    · right
      omega
  · push_neg at hcase
    by_cases hcase2 : h + 1 + (m + 1) < w.length + T.chars.length
    · -- the separator's newline lies inside the table: it is a joint
      have hq : T.chars.get? (h + 1 + (m + 1) - w.length) = some '\n' := by
        rw [← hu] at hnl
        rw [List.get?_eq_getElem?, List.getElem?_drop] at hnl
        rw [List.get?_eq_getElem?]
        rw [List.getElem?_append_right (by omega : w.length ≤ h + 1 + (m + 1)),
          List.getElem?_append_left (by omega)] at hnl
        rw [← hnl]
      have hq' : (rowsChars (T.hd :: T.sp :: T.rows)).get?
          (h + 1 + (m + 1) - w.length) = some '\n' := hq
      obtain ⟨ls₁, ls₂, h1ne, h2ne, h2wf, heqc, hqlen⟩ :=
        rowsChars_newline_split (T.hd :: T.sp :: T.rows) (wf_lines T hwf) _ hq'
      have hTeq : T.chars = rowsChars ls₁ ++ '\n' :: rowsChars ls₂ := heqc
      have hsplit : u.drop (m + 2) = rowsChars ls₂ ++ v := by
        rw [hud]
        have hshape : w ++ (T.chars ++ v) =
            ((w ++ rowsChars ls₁) ++ ['\n']) ++ (rowsChars ls₂ ++ v) := by
          rw [hTeq]
          simp
        have hplen : ((w ++ rowsChars ls₁) ++ ['\n']).length = h + 1 + (m + 2) := by
          simp only [List.length_append, List.length_cons, List.length_nil]
          omega
        rw [hshape, ← hplen, List.drop_left]
      rw [hsplit] at hrows
      obtain ⟨d', hd', hge⟩ := tblRows_covers (rowsChars ls₂ ++ v).length ls₂ v
        h2ne h2wf hv (le_refl _)
      rw [hrows] at hd'
      injection hd' with hdd
      have hTlen : T.chars.length = (rowsChars ls₁).length + 1 + (rowsChars ls₂).length := by
        rw [hTeq]
        simp only [List.length_append, List.length_cons]
        omega
      right
      omega
    · right
      push_neg at hcase2
      omega

/-- The `finditer` scan always reports a match that covers a rendered
well-formed table present in the text. -/
theorem scanTables_contains : ∀ (fuel : Nat) (w : List Char) (T : WfTable), T.Wf →
    ∀ (v : List Char), (v = [] ∨ v.head? = some '\n') → ∀ (pos : Nat),
    (w ++ (T.chars ++ v)).length ≤ fuel →
    ∃ t ∈ scanTables fuel (w ++ (T.chars ++ v)) pos,
      t.start ≤ pos + w.length ∧ pos + w.length + T.chars.length ≤ t.stop := by
  intro fuel
  induction fuel with
  | zero =>
    intro w T hwf v hv pos hle
    exfalso
    have h3 : 3 ≤ (rowsChars (T.hd :: T.sp :: T.rows)).length :=
      rowsChars_pos _ (by simp) (wf_lines T hwf)
    have hT3 : 3 ≤ T.chars.length := h3
    simp only [List.length_append] at hle
    omega
  | succ k ih =>
    intro w T hwf v hv pos hle
    rcases hmat : matchTableAt (w ++ (T.chars ++ v)) with _ | n
    · cases w with
      | nil =>
        exfalso
        obtain ⟨n', hn', _⟩ := matchTableAt_start T hwf v hv
        rw [show ([] : List Char) ++ (T.chars ++ v) = T.chars ++ v from rfl] at hmat
        rw [hn'] at hmat
        exact Option.noConfusion hmat
      | cons c wt =>
        rw [List.cons_append] at hmat ⊢
        have hstep : scanTables (k + 1) (c :: (wt ++ (T.chars ++ v))) pos =
            scanTables k (wt ++ (T.chars ++ v)) (pos + 1) := by
          simp only [scanTables, hmat]
        rw [hstep]
        obtain ⟨t, hmem, hs1, hs2⟩ := ih wt T hwf v hv (pos + 1)
          (by simp only [List.length_append, List.length_cons] at hle ⊢; omega)
        refine ⟨t, hmem, ?_, ?_⟩
        · simp only [List.length_cons]
          omega
        · simp only [List.length_cons]
          omega
    · rcases matchTableAt_no_cross w T hwf v hv n hmat with hn | hn
      · have hn1 : 1 ≤ n := by
          obtain ⟨h, u, m, d, _, _, _, hneq⟩ := matchTableAt_inv hmat
          omega
        have hstep : scanTables (k + 1) (w ++ (T.chars ++ v)) pos =
            { content := (w ++ (T.chars ++ v)).take n, start := pos, stop := pos + n }
              :: scanTables k ((w ++ (T.chars ++ v)).drop n) (pos + n) := by
          simp only [scanTables, hmat]
        have hdropn : (w ++ (T.chars ++ v)).drop n = (w.drop n) ++ (T.chars ++ v) :=
          List.drop_append_of_le_length hn
        rw [hstep, hdropn]
        obtain ⟨t, hmem, hs1, hs2⟩ := ih (w.drop n) T hwf v hv (pos + n)
          (by
            simp only [List.length_append, List.length_drop] at hle ⊢
            omega)
        have hwd : (w.drop n).length = w.length - n := List.length_drop ..
        refine ⟨t, List.mem_cons_of_mem _ hmem, ?_, ?_⟩
        · omega
        · omega
      · refine ⟨{ content := (w ++ (T.chars ++ v)).take n, start := pos, stop := pos + n },
          ?_, ?_, ?_⟩
        · rw [show scanTables (k + 1) (w ++ (T.chars ++ v)) pos =
              { content := (w ++ (T.chars ++ v)).take n, start := pos, stop := pos + n }
                :: scanTables k ((w ++ (T.chars ++ v)).drop n) (pos + n) from by
            simp only [scanTables, hmat]]
          exact List.mem_cons_self _ _
        · show pos ≤ pos + w.length
          omega
        · show pos + w.length + T.chars.length ≤ pos + n
          omega

/-- Well-formedness only gets easier at an earlier base position. -/
theorem WfMatches_mono {text : List Char} {ms : List TableMatch} {p q : Nat}
    (h : WfMatches text ms p) (hq : q ≤ p) : WfMatches text ms q := by
  cases ms with
  | nil => exact trivial
  | cons t ts =>
    simp only [WfMatches] at h ⊢
    obtain ⟨h1, h⟩ := h
    exact ⟨by omega, h⟩

/-- The scan result is well-formed. -/
theorem scanTables_spec : ∀ (fuel : Nat) (text l : List Char) (pos : Nat),
    text.drop pos = l → pos ≤ text.length →
    WfMatches text (scanTables fuel l pos) pos := by
  intro fuel
  induction fuel with
  | zero =>
    intro text l pos _ _
    simp only [scanTables]
    exact trivial
  | succ k ih =>
    intro text l pos hl hpos
    rcases hmat : matchTableAt l with _ | n
    · cases l with
      | nil =>
        simp only [scanTables, hmat]
        exact trivial
      | cons c rest =>
        have hstep : scanTables (k + 1) (c :: rest) pos =
            scanTables k rest (pos + 1) := by
          simp only [scanTables, hmat]
        rw [hstep]
        have hlen := congrArg List.length hl
        rw [List.length_drop] at hlen
        simp only [List.length_cons] at hlen
        refine WfMatches_mono (ih text rest (pos + 1) ?_ (by omega)) (by omega)
        have hcong := congrArg (List.drop 1) hl
        simp only [List.drop_drop] at hcong
        simpa [Nat.add_comm] using hcong
    · have hstep : scanTables (k + 1) l pos =
          { content := l.take n, start := pos, stop := pos + n }
            :: scanTables k (l.drop n) (pos + n) := by
        simp only [scanTables, hmat]
      rw [hstep]
      have hlen := congrArg List.length hl
      rw [List.length_drop] at hlen
      have hn_le : n ≤ l.length := matchTableAt_le hmat
      refine ⟨le_refl _, by show pos ≤ pos + n; omega,
        by show pos + n ≤ text.length; omega, ?_, ?_⟩
      · show l.take n = (text.drop pos).take (pos + n - pos)
        rw [hl, show pos + n - pos = n from by omega]
      · apply ih text (l.drop n) (pos + n)
        · have hcong := congrArg (List.drop n) hl
          simp only [List.drop_drop] at hcong
          simpa [Nat.add_comm] using hcong
        · omega

/-- The marker-insertion fold rewrites the text into take-prefix plus
spliced tail. -/
theorem foldr_splice_eq : ∀ (ms : List TableMatch) (text : List Char) (p : Nat),
    WfMatches text ms p →
    ms.foldr (fun m acc => spliceTable acc m) text = text.take p ++ splicedOf text ms p := by
  intro ms
  induction ms with
  | nil =>
    intro text p _
    simp only [List.foldr_nil, splicedOf]
    exact (List.take_append_drop p text).symm
  | cons t ts ih =>
    intro text p hwf
    simp only [WfMatches] at hwf
    obtain ⟨hp, hse, hsl, hcontent, hrec⟩ := hwf
    simp only [List.foldr_cons]
    rw [ih text t.stop hrec]
    have htake : (text.take t.stop ++ splicedOf text ts t.stop).take t.start =
        text.take t.start := by
      rw [List.take_append_of_le_length (by simp only [List.length_take]; omega),
        List.take_take, min_eq_left hse]
    have hstoplen : (text.take t.stop).length = t.stop := by
      simp only [List.length_take]
      omega
    have hdrop : (text.take t.stop ++ splicedOf text ts t.stop).drop t.stop =
        splicedOf text ts t.stop := by
      have h0 := List.drop_left (text.take t.stop) (splicedOf text ts t.stop)
      rw [hstoplen] at h0
      exact h0
    have hpp : text.take p ++ (text.take t.start).drop p = text.take t.start := by
      have htp : (text.take t.start).take p = text.take p := by
        rw [List.take_take, min_eq_left hp]
      rw [← htp, List.take_append_drop]
    simp only [spliceTable]
    rw [htake, hdrop]
    simp only [splicedOf]
    calc text.take t.start ++ markerWrap t.content ++ splicedOf text ts t.stop
        = (text.take p ++ (text.take t.start).drop p) ++
            (markerWrap t.content ++ splicedOf text ts t.stop) := by
          rw [hpp]
          simp [List.append_assoc]
      _ = text.take p ++ ((text.take t.start).drop p ++ markerWrap t.content ++
            splicedOf text ts t.stop) := by
          simp [List.append_assoc]

/-- Position of the `k`-th match's content inside the spliced tail:
each earlier wrap inserts `30` characters. -/
theorem splicedOf_index : ∀ (ms : List TableMatch) (text : List Char) (p k : Nat)
    (t : TableMatch), WfMatches text ms p → ms.get? k = some t →
    ∃ pre post, splicedOf text ms p = pre ++ (t.content ++ post) ∧
      pre.length + p = t.start + 30 * k + 16 ∧ p ≤ t.start := by
  intro ms
  induction ms with
  | nil =>
    intro text p k t _ hk
    cases k <;> exact Option.noConfusion hk
  | cons m0 ts ih =>
    intro text p k t hwf hk
    simp only [WfMatches] at hwf
    obtain ⟨hp, hse, hsl, hcontent, hrec⟩ := hwf
    cases k with
    | zero =>
      simp only [List.get?_cons_zero, Option.some.injEq] at hk
      subst hk
      refine ⟨(text.take m0.start).drop p ++ "\n\n[TABLE_START]\n".data,
        "\n[TABLE_END]\n\n".data ++ splicedOf text ts m0.stop, ?_, ?_, hp⟩
      · simp only [splicedOf, markerWrap]
        simp [List.append_assoc]
      · have hmin : min m0.start text.length = m0.start := by
          rw [min_eq_left]
          omega
        simp only [List.length_append, List.length_drop, List.length_take,
          List.length_cons, List.length_nil, hmin]
        omega
    | succ k' =>
      simp only [List.get?_cons_succ] at hk
      obtain ⟨pre', post', heq, hlen, hps⟩ := ih text m0.stop k' t hrec hk
      refine ⟨(text.take m0.start).drop p ++ markerWrap m0.content ++ pre', post',
        ?_, ?_, by omega⟩
      · simp only [splicedOf]
        rw [heq]
        simp [List.append_assoc]
      · have hclen : m0.content.length = m0.stop - m0.start := by
          rw [hcontent]
          simp only [List.length_take, List.length_drop]
          omega
        have hwlen : (markerWrap m0.content).length = m0.content.length + 30 := by
          simp only [markerWrap, List.length_append, List.length_cons, List.length_nil]
          omega
        have hmin : min m0.start text.length = m0.start := by
          rw [min_eq_left]
          omega
        simp only [List.length_append, List.length_drop, List.length_take, hwlen, hmin]
        omega

/-- Per-index facts of a well-formed match list. -/
theorem WfMatches_get : ∀ (ms : List TableMatch) (text : List Char) (p k : Nat)
    (t : TableMatch), WfMatches text ms p → ms.get? k = some t →
    t.content = (text.drop t.start).take (t.stop - t.start) ∧
      t.start ≤ t.stop ∧ t.stop ≤ text.length := by
  intro ms
  induction ms with
  | nil =>
    intro text p k t _ hk
    cases k <;> exact Option.noConfusion hk
  | cons m0 ts ih =>
    intro text p k t hwf hk
    simp only [WfMatches] at hwf
    obtain ⟨hp, hse, hsl, hcontent, hrec⟩ := hwf
    cases k with
    | zero =>
      simp only [List.get?_cons_zero, Option.some.injEq] at hk
      subst hk
      exact ⟨hcontent, hse, hsl⟩
    | succ k' =>
      simp only [List.get?_cons_succ] at hk
      exact ih text m0.stop k' t hrec hk

/-- C2: a text containing a rendered well-formed markdown table is
detected by `detect_tables_in_content`; `extract_tables` reports a
match covering the table, `mark_table_boundaries` carries the table
verbatim at offset `|u| + 30·k + 16`, and any chunking whose cuts
respect the marked regions (the spec's contract for the table-aware
splitter) places no cut strictly inside the table's character range. -/
theorem C2_table_integrity (u v : List Char) (T : WfTable) (hwf : T.Wf)
    (hv : v = [] ∨ v.head? = some '\n') :
    detect_tables_in_content (String.mk (u ++ (T.chars ++ v))) = true ∧
    ∃ k t pre post,
      (extract_tables (String.mk (u ++ (T.chars ++ v)))).get? k = some t ∧
      t.start ≤ u.length ∧ u.length + T.chars.length ≤ t.stop ∧
      (mark_table_boundaries (String.mk (u ++ (T.chars ++ v)))).data =
        pre ++ (T.chars ++ post) ∧
      pre.length = u.length + 30 * k + 16 ∧
      (∀ cuts, RespectsRegions (String.mk (u ++ (T.chars ++ v))) cuts →
        ∀ i ∈ cuts, ¬ (pre.length < i ∧ i < pre.length + T.chars.length)) := by
  constructor
  · exact detect_tables_of_wf u v T hwf
  · obtain ⟨t, hmem, hts, htstop⟩ := scanTables_contains
      (u ++ (T.chars ++ v)).length u T hwf v hv 0 (le_refl _)
    simp only [Nat.zero_add] at hts htstop
    obtain ⟨k, hk⟩ := List.mem_iff_get?.mp
      (show t ∈ extract_tables (String.mk (u ++ (T.chars ++ v))) from hmem)
    have hwfm : WfMatches (u ++ (T.chars ++ v))
        (extract_tables (String.mk (u ++ (T.chars ++ v)))) 0 :=
      scanTables_spec _ _ _ 0 rfl (Nat.zero_le _)
    have hfold : (mark_table_boundaries (String.mk (u ++ (T.chars ++ v)))).data =
        (extract_tables (String.mk (u ++ (T.chars ++ v)))).foldr
          (fun m acc => spliceTable acc m) (u ++ (T.chars ++ v)) :=
      List.foldl_reverse _ _ _
    rw [foldr_splice_eq _ _ 0 hwfm] at hfold
    obtain ⟨pre1, post1, hsp, hsplen, hp0⟩ :=
      splicedOf_index _ (u ++ (T.chars ++ v)) 0 k t hwfm hk
    obtain ⟨hcontent, hse, hsl⟩ := WfMatches_get _ (u ++ (T.chars ++ v)) 0 k t hwfm hk
    have hdropstart : (u ++ (T.chars ++ v)).drop t.start =
        u.drop t.start ++ (T.chars ++ v) :=
      List.drop_append_of_le_length hts
    have hul : (u.drop t.start).length = u.length - t.start := List.length_drop ..
    have hsllen : (u ++ (T.chars ++ v)).length =
        u.length + T.chars.length + v.length := by
      simp only [List.length_append]
      omega
    have hab : t.content =
        u.drop t.start ++ (T.chars ++ v.take (t.stop - u.length - T.chars.length)) := by
      rw [hcontent, hdropstart]
      rw [show t.stop - t.start = (u.drop t.start).length + (t.stop - u.length) from by
        rw [hul]; omega]
      rw [List.take_append]
      congr 1
      rw [show t.stop - u.length =
        T.chars.length + (t.stop - u.length - T.chars.length) from by omega]
      rw [List.take_append]
      congr 2
      omega
    have hplen : (pre1 ++ u.drop t.start).length = u.length + 30 * k + 16 := by
      simp only [List.length_append]
      omega
    refine ⟨k, t, pre1 ++ u.drop t.start,
      v.take (t.stop - u.length - T.chars.length) ++ post1, hk, hts, htstop, ?_,
      hplen, ?_⟩
    · rw [hfold]
      simp only [List.take_zero, List.nil_append]
      rw [hsp, hab]
      simp [List.append_assoc]
    · intro cuts hresp i hi hcon
      rw [List.get?_eq_getElem?] at hk
      have henum : (extract_tables (String.mk (u ++ (T.chars ++ v)))).enum[k]? =
          some (k, t) := by
        rw [List.getElem?_enum, hk]
        rfl
      have hmr : (markedRegionsOf (extract_tables (String.mk (u ++ (T.chars ++ v)))))[k]? =
          some (t.start + 30 * k + 2, t.stop + 30 * k + 28) := by
        show ((extract_tables (String.mk (u ++ (T.chars ++ v)))).enum.map _)[k]? = _
        rw [List.getElem?_map, henum]
        rfl
      have hregion := List.getElem?_mem hmr
      have hnot := hresp i hi _ hregion
      apply hnot
      rw [hplen] at hcon
      constructor
      · show t.start + 30 * k + 2 < i
        omega
      · show i < t.stop + 30 * k + 28
        omega

/-- Witness: C2 at a concrete text with one table. -/
theorem C2_table_integrity_witness :
    c2T.Wf ∧ (c2v = [] ∨ c2v.head? = some '\n') ∧
    (detect_tables_in_content (String.mk (c2u ++ (c2T.chars ++ c2v))) = true ∧
    ∃ k t pre post,
      (extract_tables (String.mk (c2u ++ (c2T.chars ++ c2v)))).get? k = some t ∧
      t.start ≤ c2u.length ∧ c2u.length + c2T.chars.length ≤ t.stop ∧
      (mark_table_boundaries (String.mk (c2u ++ (c2T.chars ++ c2v)))).data =
        pre ++ (c2T.chars ++ post) ∧
      pre.length = c2u.length + 30 * k + 16 ∧
      (∀ cuts, RespectsRegions (String.mk (c2u ++ (c2T.chars ++ c2v))) cuts →
        ∀ i ∈ cuts, ¬ (pre.length < i ∧ i < pre.length + c2T.chars.length))) :=
  ⟨by unfold c2T WfTable.Wf wfRow hasNonSep; decide, by decide,
    C2_table_integrity c2u c2v c2T (by unfold c2T WfTable.Wf wfRow hasNonSep; decide)
      (by decide)⟩
